import Mathlib

/-!
# Verification of the retrieval-scoring engine

A shallow embedding of the scoring core of the `helloworld-ai` evaluation
harness (`eval/scripts/score_retrieval.py`, `eval/scripts/score_abstention.py`,
`eval/scripts/compare_runs.py`), together with proofs of the behavioural
properties stated in the specification.

Python strings are modelled as `List Char`; Python floats that only ever hold
exact small values (metric scores) are modelled as `ℚ`; fallible code paths
are modelled with `Option`.
-/

namespace HelloworldEval

/-- Python strings are modelled as lists of characters. -/
abbrev Str := List Char

/-- The whitespace characters recognised by Python's `str.strip()` and the
regex class `\s` (restricted to the ASCII range, which is all the repository's
data uses). -/
def pyWs (c : Char) : Bool :=
  c = ' ' || c = '\t' || c = '\n' || c = '\r' || c = '\x0b' || c = '\x0c'

/-- Remove trailing whitespace (the second half of Python `s.strip()`). -/
def dropTrailingWs (s : Str) : Str :=
  (s.reverse.dropWhile pyWs).reverse

/-- Python `s.strip()`: remove leading and trailing whitespace. -/
def stripWs (s : Str) : Str :=
  dropTrailingWs (s.dropWhile pyWs)

/-- Python `s.lower()`, character-wise (ASCII case folding, as used by the
snippet matching in `matches_gold_support`). -/
def lower (s : Str) : Str := s.map Char.toLower

/-- `isPre p l`: Python `l.startswith(p)` — `p` is a prefix of `l`. -/
def isPre : Str → Str → Bool
  | [], _ => true
  | _ :: _, [] => false
  | a :: as, b :: bs => a = b && isPre as bs

/-- `isSubstr n h`: Python `n in h` — `n` occurs as a contiguous substring
of `h`. -/
def isSubstr (n : Str) : Str → Bool
  | [] => isPre n []
  | c :: t => isPre n (c :: t) || isSubstr n t

/-!
## `normalize_heading_path` (score_retrieval.py, lines 24–72)

The Python function is a pipeline:
1. `heading_path.strip()`;
2. `re.sub(r'\s*>\s*', ' > ', ...)` — every `>` together with the surrounding
   whitespace becomes the canonical separator `" > "` (leftmost, greedy,
   non-overlapping matches, exactly as `re.sub` scans);
3. `.split(' > ')`;
4. per part: `.strip()`, then `re.sub(r'^#+\s*', '', ...)`, then
   `re.sub(r'\s+', ' ', ...)`, keep `part.strip()` when the collapse result
   is non-empty;
5. `' > '.join(...)` and a final `.strip()`.
-/

mutual

/-- Step 2 of `normalize_heading_path`: `re.sub(r'\s*>\s*', ' > ', s)`.
Scans left to right; a match is a (possibly empty) whitespace run, a `>`,
and a (possibly empty) trailing whitespace run, replaced by `' > '`. -/
def sub1 : Str → Str
  | [] => []
  | c :: rest =>
    if c = '>' then ' ' :: '>' :: ' ' :: afterGt rest
    else if pyWs c then inWs [c] rest
    else c :: sub1 rest

/-- Continuation of `sub1` right after a match: the trailing `\s*` of the
match is consumed greedily, then scanning resumes. -/
def afterGt : Str → Str
  | [] => []
  | c :: rest =>
    if pyWs c then afterGt rest
    else if c = '>' then ' ' :: '>' :: ' ' :: afterGt rest
    else c :: sub1 rest

/-- Continuation of `sub1` inside a whitespace run that may yet turn into the
leading `\s*` of a match; `acc` holds the run scanned so far, reversed. -/
def inWs (acc : Str) : Str → Str
  | [] => acc.reverse
  | c :: rest =>
    if pyWs c then inWs (c :: acc) rest
    else if c = '>' then ' ' :: '>' :: ' ' :: afterGt rest
    else acc.reverse ++ c :: sub1 rest

end

/-- The canonical separator `" > "`. -/
def sep : Str := [' ', '>', ' ']

/-- Step 3 of `normalize_heading_path`: Python `s.split(' > ')` —
split on leftmost non-overlapping occurrences of the separator. -/
def splitG : Str → List Str
  | ' ' :: '>' :: ' ' :: rest => [] :: splitG rest
  | c :: rest =>
    match splitG rest with
    | [] => [[c]]
    | p :: ps => (c :: p) :: ps
  | [] => [[]]

/-- Per-part step of `normalize_heading_path`:
`re.sub(r'^#+\s*', '', part)` — if the part begins with `#`, drop the leading
run of `#` and the following whitespace run. -/
def hashStrip (p : Str) : Str :=
  match p with
  | '#' :: _ => (p.dropWhile (· = '#')).dropWhile pyWs
  | _ => p

mutual

/-- Per-part step of `normalize_heading_path`:
`re.sub(r'\s+', ' ', part)` — every maximal whitespace run becomes one `' '`. -/
def collapse : Str → Str
  | [] => []
  | c :: rest => if pyWs c then ' ' :: collapseW rest else c :: collapse rest

/-- Continuation of `collapse` inside a whitespace run whose replacement
`' '` has already been emitted. -/
def collapseW : Str → Str
  | [] => []
  | c :: rest => if pyWs c then collapseW rest else c :: collapse rest

end

/-- The whole per-part processing of steps 4: strip, strip heading markers,
collapse whitespace. -/
def processPart (q : Str) : Str := collapse (hashStrip (stripWs q))

/-- `normalize_heading_path` (score_retrieval.py, lines 24–72). -/
def normalize_heading_path (heading_path : Str) : Str :=
  if heading_path = [] then []
  else
    let n1 := stripWs heading_path
    let n2 := sub1 n1
    let parts := splitG n2
    let normalized_parts := parts.filterMap fun part =>
      let part' := processPart part
      if part' = [] then none else some (stripWs part')
    stripWs (List.intercalate sep normalized_parts)

/-!
## `matches_gold_support` (score_retrieval.py, lines 75–125)
-/

/-- `matches_gold_support` (score_retrieval.py, lines 75–125).  The
`gold_snippets` argument models the Python `Optional[List[str]]` parameter;
the `if gold_snippets:` truthiness test is false for both `None` and `[]`. -/
def matches_gold_support (chunk_rel_path chunk_heading_path chunk_text : Str)
    (gold_rel_path gold_heading_path : Str)
    (gold_snippets : Option (List Str)) : Bool :=
  let chunk_heading := normalize_heading_path chunk_heading_path
  let gold_heading := normalize_heading_path gold_heading_path
  if chunk_rel_path ≠ gold_rel_path then false
  else if ¬ isPre gold_heading chunk_heading then false
  else
    match gold_snippets with
    | some (s :: ss) =>
        let chunk_text_lower := lower chunk_text
        (s :: ss).any fun snippet => isSubstr (lower snippet) chunk_text_lower
    | _ => true

/-!
## Data model (storage.py records, as consumed by score_retrieval.py)

The Python code reads loosely-typed dicts with `.get(key, default)`;
the structures below carry the fields with the defaults already applied:
a missing `rel_path`/`heading_path`/`text` is the empty string, a missing
`rank` is `0`, a missing `snippets` is `none`.
-/

/-- One retrieved chunk, with the fields `compute_*` reads
(`chunk.get("rel_path", "")` etc.; `rank` defaults to `0` when absent). -/
structure RetrievedChunk where
  rel_path : Str
  heading_path : Str
  text : Str
  rank : Nat
deriving DecidableEq

/-- One gold support anchor (`gold_support.get("rel_path", "")` etc.;
`snippets` is `gold_support.get("snippets")`, which may be absent). -/
structure GoldSupport where
  rel_path : Str
  heading_path : Str
  snippets : Option (List Str)
deriving DecidableEq

/-- One cited reference, as read by `compute_attribution_hit`
(references carry no `text` field). -/
structure Reference where
  rel_path : Str
  heading_path : Str
deriving DecidableEq

/-- The inner loop body shared by the metric engine: does `chunk` match
`gold_support`? -/
def chunkMatches (chunk : RetrievedChunk) (gold_support : GoldSupport) : Bool :=
  matches_gold_support chunk.rel_path chunk.heading_path chunk.text
    gold_support.rel_path gold_support.heading_path gold_support.snippets

/-- Does `chunk` match any gold support in the list (scanned in order)? -/
def chunkMatchesAny (chunk : RetrievedChunk) (gold_supports : List GoldSupport) : Bool :=
  gold_supports.any (chunkMatches chunk)

/-!
## Retrieval metric engine (score_retrieval.py, lines 128–420)
-/

/-- The scan loop of `compute_recall_at_k` over the already-truncated
chunk list: first matching chunk wins, returning `(1.0, chunk.rank)`. -/
def recallScan (gold_supports : List GoldSupport) : List RetrievedChunk → ℚ × Option Nat
  | [] => (0, none)
  | chunk :: rest =>
    if chunkMatchesAny chunk gold_supports then (1, some chunk.rank)
    else recallScan gold_supports rest

/-- `compute_recall_at_k` (score_retrieval.py, lines 128–171). -/
def compute_recall_at_k (retrieved_chunks : List RetrievedChunk)
    (gold_supports : List GoldSupport) (k : Nat) : ℚ × Option Nat :=
  recallScan gold_supports (retrieved_chunks.take k)

/-- `compute_recall_all_at_k` (score_retrieval.py, lines 174–247).
`required_support_groups = []` also models the Python `None`
(`if not required_support_groups:`). -/
def compute_recall_all_at_k (retrieved_chunks : List RetrievedChunk)
    (gold_supports : List GoldSupport)
    (required_support_groups : List (List Nat)) (k : Nat) : ℚ :=
  if required_support_groups = [] then
    (compute_recall_at_k retrieved_chunks gold_supports k).1
  else
    let top_k_chunks := retrieved_chunks.take k
    if required_support_groups.any (fun group =>
        group.all fun support_idx =>
          match gold_supports[support_idx]? with
          | none => false
          | some gold_support => top_k_chunks.any fun chunk => chunkMatches chunk gold_support)
    then 1 else 0

/-- `compute_mrr` (score_retrieval.py, lines 250–271).  The Python code
divides `1.0 / first_match_rank`; a zero rank (possible only for a chunk
record missing its `rank` field) would raise `ZeroDivisionError`, modelled
here by `none`. -/
def compute_mrr (retrieved_chunks : List RetrievedChunk)
    (gold_supports : List GoldSupport) (k : Nat) : Option ℚ :=
  match compute_recall_at_k retrieved_chunks gold_supports k with
  | (_, none) => some 0
  | (_, some first_match_rank) =>
    if first_match_rank = 0 then none else some (1 / (first_match_rank : ℚ))

/-- `compute_precision_at_k` (score_retrieval.py, lines 274–320). -/
def compute_precision_at_k (retrieved_chunks : List RetrievedChunk)
    (gold_supports : List GoldSupport) (k : Nat) : ℚ :=
  if k = 0 then 0
  else
    let top_k_chunks := retrieved_chunks.take k
    let matching_count := top_k_chunks.countP fun chunk => chunkMatchesAny chunk gold_supports
    (matching_count : ℚ) / (k : ℚ)

/-- `compute_scope_miss` (score_retrieval.py, lines 323–368).  The Python
function also receives `folder_selection_info`, which the implementation
never uses (see the TODO in the source); it is omitted here. -/
def compute_scope_miss (retrieved_chunks : List RetrievedChunk)
    (gold_supports : List GoldSupport) (folder_mode : Str) : Bool :=
  if ¬ (folder_mode = "on".toList ∨ folder_mode = "on_with_fallback".toList) then false
  else if gold_supports = [] then false
  else if (compute_recall_at_k retrieved_chunks gold_supports retrieved_chunks.length).1 > 0
    then false
  else true

/-- `compute_attribution_hit` (score_retrieval.py, lines 371–420).
References carry no text, so the chunk-text argument is `""`. -/
def compute_attribution_hit (references : List Reference)
    (gold_supports : List GoldSupport) (answerable : Bool) : Bool :=
  if ¬ answerable then false
  else if references = [] then false
  else references.any fun ref =>
    gold_supports.any fun gold_support =>
      matches_gold_support ref.rel_path ref.heading_path []
        gold_support.rel_path gold_support.heading_path gold_support.snippets

/-!
## Abstention scorer (score_abstention.py, lines 24–71)
-/

/-- The `AbstentionResult` record (storage.py). -/
structure AbstentionResult where
  abstained : Bool
  hallucinated : Bool
deriving DecidableEq

/-- The fields of a test result read by
`compute_abstention_metrics_for_test`: `abstention = some b` models a truthy
`abstention` record whose `abstained` value (defaulted to `False` via
`.get("abstained", False)`) is `b`; `none` models an absent record. -/
structure TestResultAbst where
  abstention : Option Bool
  answer : Str
deriving DecidableEq

/-- `compute_abstention_metrics_for_test` (score_abstention.py, lines 24–71).
`answerable` is `test_case.get("answerable", True)`. -/
def compute_abstention_metrics_for_test (test_result : TestResultAbst)
    (answerable : Bool) : Option AbstentionResult :=
  if answerable then none
  else
    match test_result.abstention with
    | some abstained => some ⟨abstained, ! abstained⟩
    | none =>
      if test_result.answer = [] ∨ stripWs test_result.answer = [] then
        some ⟨true, false⟩
      else
        some ⟨false, true⟩

/-!
## Run comparator (compare_runs.py, lines 284–370)
-/

/-- The fields of one per-test result record read by `find_test_changes`:
`recall_at_k` is `r.get("retrieval_metrics", {}).get("recall_at_k")`
(defaulted to `0.0` at use site), `groundedness_score` is
`r.get("groundedness", {}).get("score")`, and similarly for correctness. -/
structure CompResult where
  test_case_id : Str
  recall_at_k : Option ℚ
  groundedness_score : Option ℚ
  correctness_score : Option ℚ
deriving DecidableEq

/-- The loop body of `find_test_changes` for one common test case:
`(is_regression, is_improvement)`. -/
def findChangesForPair (r1 r2 : CompResult) : Bool × Bool :=
  let recall1 := r1.recall_at_k.getD 0
  let recall2 := r2.recall_at_k.getD 0
  let recallReg : Bool := recall1 = 1 ∧ recall2 = 0
  let recallImp : Bool := ¬ recallReg ∧ recall1 = 0 ∧ recall2 = 1
  let gReg : Bool :=
    match r1.groundedness_score, r2.groundedness_score with
    | some g1, some g2 => g1 ≥ 4 ∧ g2 < 3
    | _, _ => false
  let gImp : Bool :=
    match r1.groundedness_score, r2.groundedness_score with
    | some g1, some g2 => ¬ (g1 ≥ 4 ∧ g2 < 3) ∧ g1 < 3 ∧ g2 ≥ 4
    | _, _ => false
  let cReg : Bool :=
    match r1.correctness_score, r2.correctness_score with
    | some c1, some c2 => c1 ≥ 4 ∧ c2 < 3
    | _, _ => false
  let cImp : Bool :=
    match r1.correctness_score, r2.correctness_score with
    | some c1, some c2 => ¬ (c1 ≥ 4 ∧ c2 < 3) ∧ c1 < 3 ∧ c2 ≥ 4
    | _, _ => false
  (recallReg || gReg || cReg, recallImp || gImp || cImp)

/-- The dict built by `find_test_changes` from a result list:
`{r.get("test_case_id"): r for r in results}` — the last record with a given
id wins. -/
def lookupResult (results : List CompResult) (id : Str) : Option CompResult :=
  results.reverse.find? fun r => r.test_case_id = id

/-- The key set intersection `set(results1_dict) & set(results2_dict)` of
`find_test_changes`, as a duplicate-free list. -/
def commonIds (results1 results2 : List CompResult) : List Str :=
  ((results1.map (·.test_case_id)).dedup).filter fun id =>
    (results2.map (·.test_case_id)).contains id

/-- `find_test_changes` (compare_runs.py, lines 284–370), reduced to the ids
it classifies: `(regression ids, improvement ids)`.  (The Python function
attaches the question and a change log to each id; every branch that sets a
flag also appends a change, so the `and changes` guards are redundant.) -/
def find_test_changes (results1 results2 : List CompResult) : List Str × List Str :=
  let common := commonIds results1 results2
  let classify : Str → Bool × Bool := fun id =>
    match lookupResult results1 id, lookupResult results2 id with
    | some r1, some r2 => findChangesForPair r1 r2
    | _, _ => (false, false)
  (common.filter fun id => (classify id).1, common.filter fun id => (classify id).2)

/-!
## Basic lemmas about the string model
-/

theorem isPre_iff (p l : Str) : isPre p l = true ↔ ∃ t, l = p ++ t := by
  induction p generalizing l with
  | nil => simp [isPre]
  | cons a as ih =>
    cases l with
    | nil => simp [isPre]
    | cons b bs =>
      simp only [isPre, Bool.and_eq_true, decide_eq_true_eq, ih]
      constructor
      · rintro ⟨rfl, t, rfl⟩
        exact ⟨t, rfl⟩
      · rintro ⟨t, ht⟩
        simp only [List.cons_append, List.cons.injEq] at ht
        exact ⟨ht.1.symm, t, ht.2⟩

theorem isSubstr_iff (n h : Str) : isSubstr n h = true ↔ ∃ u v, h = u ++ n ++ v := by
  induction h with
  | nil =>
    simp only [isSubstr, isPre_iff]
    constructor
    · rintro ⟨t, ht⟩
      exact ⟨[], t, ht⟩
    · rintro ⟨u, v, huv⟩
      rcases u with _ | ⟨c, u⟩
      · exact ⟨v, huv⟩
      · simp at huv
  | cons c t ih =>
    simp only [isSubstr, Bool.or_eq_true, isPre_iff, ih]
    constructor
    · rintro (⟨s, hs⟩ | ⟨u, v, rfl⟩)
      · exact ⟨[], s, by simpa using hs⟩
      · exact ⟨c :: u, v, rfl⟩
    · rintro ⟨u, v, huv⟩
      rcases u with _ | ⟨b, u⟩
      · exact Or.inl ⟨v, by simpa using huv⟩
      · simp only [List.cons_append, List.cons.injEq] at huv
        exact Or.inr ⟨u, v, huv.2⟩

theorem lower_eq_nil_iff (s : Str) : lower s = [] ↔ s = [] := by
  cases s <;> simp [lower]

/-- The Matcher as a single boolean conjunction (unfolding of its
short-circuit `if` chain). -/
theorem matches_eq (crp chp ct grp ghp : Str) (gs : Option (List Str)) :
    matches_gold_support crp chp ct grp ghp gs =
      (decide (crp = grp) &&
       isPre (normalize_heading_path ghp) (normalize_heading_path chp) &&
       (match gs with
        | some (s :: ss) => (s :: ss).any fun sn => isSubstr (lower sn) (lower ct)
        | _ => true)) := by
  unfold matches_gold_support
  by_cases hrel : crp = grp <;>
    by_cases hpre :
        isPre (normalize_heading_path ghp) (normalize_heading_path chp) = true <;>
    simp [hrel, hpre]

/-!
## Claim theorems: the Gold-Support Matcher
-/

/-- **C1** — Matcher characterization: `matches_gold_support` returns `true`
iff (1) the chunk's `rel_path` equals the gold's exactly, (2) the normalized
chunk heading starts with the normalized gold heading, and (3) the gold's
snippets are empty or absent, or at least one snippet occurs
case-insensitively as a substring of the chunk text; in particular, on equal
`rel_path`, gold heading `"Setup"` matches chunk heading
`"Setup > Embeddings"` and the reversed pair does not match. -/
theorem matcher_characterization
    (chunk_rel_path chunk_heading_path chunk_text : Str)
    (gold_rel_path gold_heading_path : Str) (gold_snippets : Option (List Str)) :
    (matches_gold_support chunk_rel_path chunk_heading_path chunk_text
        gold_rel_path gold_heading_path gold_snippets = true ↔
      (chunk_rel_path = gold_rel_path ∧
       (∃ t, normalize_heading_path chunk_heading_path =
          normalize_heading_path gold_heading_path ++ t) ∧
       (gold_snippets = none ∨ gold_snippets = some [] ∨
        ∃ snippet ∈ gold_snippets.getD [],
          ∃ u v, lower chunk_text = u ++ lower snippet ++ v)))
    ∧ matches_gold_support "a.md".toList "Setup > Embeddings".toList []
        "a.md".toList "Setup".toList none = true
    ∧ matches_gold_support "a.md".toList "Setup".toList []
        "a.md".toList "Setup > Embeddings".toList none = false := by
  refine ⟨?_, by decide, by decide⟩
  rw [matches_eq]
  rcases gold_snippets with _ | ⟨_ | ⟨s, ss⟩⟩
  · simp [isPre_iff]
  · simp [isPre_iff]
  · simp only [Bool.and_eq_true, decide_eq_true_eq, isPre_iff, List.any_eq_true,
      isSubstr_iff, Option.getD_some, reduceCtorEq, Option.some.injEq, false_or]
    tauto

/-- **C2**, counterexample — the claim says the heading comparison is
segment-wise (gold `"Set"` must not match chunk `"Setup"`), but the source
compares with a raw `str.startswith` on the normalized strings, so the match
succeeds even though the segment list `["Set"]` is not a prefix of the
segment list `["Setup"]`. -/
theorem matcher_segmentwise_counterexample :
    matches_gold_support "a.md".toList "Setup".toList []
        "a.md".toList "Set".toList none = true ∧
    (splitG (normalize_heading_path "Setup".toList)).take
        (splitG (normalize_heading_path "Set".toList)).length ≠
      splitG (normalize_heading_path "Set".toList) := by decide

/-- **C2**, amended — the Matcher's heading comparison is a raw
character-level prefix test on the normalized heading strings (not a
segment-wise one): with equal `rel_path` and no snippets, the match succeeds
iff the normalized chunk heading literally starts with the normalized gold
heading; in particular gold heading `"Set"` does match chunk heading
`"Setup"`. -/
theorem matcher_raw_start
    (rel chunk_heading_path gold_heading_path chunk_text : Str) :
    (matches_gold_support rel chunk_heading_path chunk_text
        rel gold_heading_path none = true ↔
      ∃ t, normalize_heading_path chunk_heading_path =
        normalize_heading_path gold_heading_path ++ t)
    ∧ matches_gold_support "a.md".toList "Setup".toList []
        "a.md".toList "Set".toList none = true := by
  refine ⟨?_, by decide⟩
  rw [matches_eq]
  simp [isPre_iff]

/-!
## Lemmas about the recall scan
-/

theorem recallScan_fst_eq_zero_iff (golds : List GoldSupport) (l : List RetrievedChunk) :
    (recallScan golds l).1 = 0 ↔ ∀ c ∈ l, chunkMatchesAny c golds = false := by
  induction l with
  | nil => simp [recallScan]
  | cons c rest ih =>
    by_cases hc : chunkMatchesAny c golds = true
    · simp [recallScan, hc]
    · simp only [Bool.not_eq_true] at hc
      simp [recallScan, hc, ih]

theorem recallScan_fst_zero_or_one (golds : List GoldSupport) (l : List RetrievedChunk) :
    (recallScan golds l).1 = 0 ∨ (recallScan golds l).1 = 1 := by
  induction l with
  | nil => simp [recallScan]
  | cons c rest ih =>
    by_cases hc : chunkMatchesAny c golds = true
    · simp [recallScan, hc]
    · simp only [Bool.not_eq_true] at hc
      simpa [recallScan, hc] using ih

theorem recallScan_of_no_match (golds : List GoldSupport) (l : List RetrievedChunk)
    (h : ∀ c ∈ l, chunkMatchesAny c golds = false) :
    recallScan golds l = (0, none) := by
  induction l with
  | nil => rfl
  | cons c rest ih =>
    have hc := h c (by simp)
    simp only [recallScan, hc, Bool.false_eq_true, if_false]
    exact ih fun c' hc' => h c' (by simp [hc'])

theorem recallScan_first_match (golds : List GoldSupport) :
    ∀ (l : List RetrievedChunk) (i : Nat) (h : i < l.length),
      chunkMatchesAny l[i] golds = true →
      (∀ c ∈ l.take i, chunkMatchesAny c golds = false) →
      recallScan golds l = (1, some l[i].rank)
  | c :: rest, 0, _, hm, _ => by
      simp only [List.getElem_cons_zero] at hm ⊢
      simp [recallScan, hm]
  | c :: rest, j + 1, h, hm, hj => by
      have hc : chunkMatchesAny c golds = false := hj c (by simp)
      simp only [List.getElem_cons_succ] at hm ⊢
      simp only [recallScan, hc, Bool.false_eq_true, if_false]
      exact recallScan_first_match golds rest j (Nat.lt_of_succ_lt_succ h) hm
        fun c' hc' => hj c' (by simp [hc'])

theorem recallScan_snd_shape (golds : List GoldSupport) (l : List RetrievedChunk) :
    recallScan golds l = (0, none) ∨
      ∃ c ∈ l, recallScan golds l = (1, some c.rank) ∧ chunkMatchesAny c golds = true := by
  induction l with
  | nil => exact Or.inl rfl
  | cons c rest ih =>
    by_cases hc : chunkMatchesAny c golds = true
    · exact Or.inr ⟨c, by simp, by simp [recallScan, hc], hc⟩
    · simp only [Bool.not_eq_true] at hc
      rcases ih with h0 | ⟨c', hmem, heq, hmatch⟩
      · exact Or.inl (by simp [recallScan, hc, h0])
      · exact Or.inr ⟨c', by simp [hmem], by simp [recallScan, hc, heq], hmatch⟩

/-!
## Claim theorem: Scope-Miss
-/

/-- **C5** — Scope-Miss rule: `compute_scope_miss` is `true` exactly when the
folder mode is `"on"` or `"on_with_fallback"`, the test case has gold
supports, and recall computed over the *entire* retrieved-chunk list (with K
set to the full list length, not the run's `k`) is `0`; in every other case —
in particular whenever that recall is positive — it is `false`. -/
theorem scope_miss_rule (retrieved_chunks : List RetrievedChunk)
    (gold_supports : List GoldSupport) (folder_mode : Str) :
    compute_scope_miss retrieved_chunks gold_supports folder_mode = true ↔
      ((folder_mode = "on".toList ∨ folder_mode = "on_with_fallback".toList) ∧
       gold_supports ≠ [] ∧
       (compute_recall_at_k retrieved_chunks gold_supports
           retrieved_chunks.length).1 = 0) := by
  have hr := recallScan_fst_zero_or_one gold_supports
    (retrieved_chunks.take retrieved_chunks.length)
  unfold compute_scope_miss compute_recall_at_k
  by_cases hmode : folder_mode = "on".toList ∨ folder_mode = "on_with_fallback".toList
  · by_cases hgold : gold_supports = []
    · simp [hmode, hgold]
    · rcases hr with h | h
      · rw [h]
        simp [hmode, hgold, h]
      · rw [h]
        simp [hmode, hgold, h, zero_lt_one]
  · simp at hmode
    simp [hmode]

/-!
## Claim theorems: Attribution-Hit
-/

/-- A gold support whose snippet list is non-empty and free of empty-string
snippets can never match against empty chunk text. -/
theorem matches_empty_text_of_snippets (crp chp grp ghp : Str) (s : Str) (ss : List Str)
    (hs : ∀ t ∈ s :: ss, t ≠ ([] : Str)) :
    matches_gold_support crp chp [] grp ghp (some (s :: ss)) = false := by
  rw [matches_eq]
  have : ((s :: ss).any fun sn => isSubstr (lower sn) (lower [])) = false := by
    simp only [List.any_eq_false]
    intro t ht
    have hne := hs t ht
    simp only [lower, List.map_nil, isSubstr, isPre_iff]
    intro hfalse
    rcases hfalse with ⟨u, hu⟩
    rcases List.append_eq_nil.mp hu.symm with ⟨hmap, -⟩
    exact hne (List.map_eq_nil_iff.mp hmap)
  simp [this]

/-- **C6**, counterexample — the claim says a gold support carrying snippets
can never match a reference, but a gold support whose snippet list contains
the empty string matches a path-compatible reference (`"" in ""` holds). -/
theorem attribution_snippets_counterexample :
    compute_attribution_hit [⟨"a.md".toList, "Setup".toList⟩]
      [⟨"a.md".toList, "Setup".toList, some [[]]⟩] true = true := by decide

/-- **C6**, amended — Attribution-Hit: for every unanswerable test case the
stored value is `false`; for every answerable test case the value is `true`
iff some cited reference matches some gold support via the Matcher with the
reference's text treated as the empty string; consequently a gold support
carrying a non-empty snippet list *none of whose snippets is the empty
string* can never match any reference (it is the empty-string snippet, and
only it, that can survive the empty reference text). -/
theorem attribution_hit_characterization (references : List Reference)
    (gold_supports : List GoldSupport) :
    compute_attribution_hit references gold_supports false = false
    ∧ (compute_attribution_hit references gold_supports true = true ↔
        ∃ ref ∈ references, ∃ g ∈ gold_supports,
          matches_gold_support ref.rel_path ref.heading_path []
            g.rel_path g.heading_path g.snippets = true)
    ∧ (∀ ref : Reference, ∀ g : GoldSupport, ∀ s ss,
        g.snippets = some (s :: ss) → (∀ t ∈ s :: ss, t ≠ ([] : Str)) →
        matches_gold_support ref.rel_path ref.heading_path []
          g.rel_path g.heading_path g.snippets = false) := by
  refine ⟨rfl, ?_, ?_⟩
  · by_cases href : references = []
    · simp [compute_attribution_hit, href]
    · simp [compute_attribution_hit, href, List.any_eq_true]
  · intro ref g s ss hsnip hne
    rw [hsnip]
    exact matches_empty_text_of_snippets _ _ _ _ s ss hne

/-- **C6**, witness — the amended theorem applied at a concrete input:
a gold support with the single non-empty snippet `"x"` does not match a
path-identical reference. -/
theorem attribution_hit_witness :
    matches_gold_support "a.md".toList "Setup".toList []
      "a.md".toList "Setup".toList (some ["x".toList]) = false :=
  (attribution_hit_characterization [] []).2.2
    ⟨"a.md".toList, "Setup".toList⟩
    ⟨"a.md".toList, "Setup".toList, some ["x".toList]⟩
    "x".toList [] rfl (by decide)

/-!
## Claim theorem: the Abstention Scorer
-/

/-- **C7** — Abstention Scorer: for an unanswerable test case, a prior
abstention determination is trusted and `hallucinated` is its negation;
otherwise the answer text decides: an empty or whitespace-only answer yields
`(abstained := true, hallucinated := false)` and any other answer yields
`(abstained := false, hallucinated := true)`; for an answerable test case the
scorer produces no result. -/
theorem abstention_scorer_rule (test_result : TestResultAbst) (answerable : Bool) :
    (answerable = true →
      compute_abstention_metrics_for_test test_result answerable = none)
    ∧ (answerable = false →
        (∀ b, test_result.abstention = some b →
          compute_abstention_metrics_for_test test_result answerable =
            some ⟨b, ! b⟩)
        ∧ (test_result.abstention = none →
            ((stripWs test_result.answer = [] →
               compute_abstention_metrics_for_test test_result answerable =
                 some ⟨true, false⟩)
             ∧ (stripWs test_result.answer ≠ [] →
               compute_abstention_metrics_for_test test_result answerable =
                 some ⟨false, true⟩)))) := by
  constructor
  · rintro rfl
    simp [compute_abstention_metrics_for_test]
  · rintro rfl
    constructor
    · intro b hb
      simp [compute_abstention_metrics_for_test, hb]
    · intro hnone
      constructor
      · intro hempty
        simp [compute_abstention_metrics_for_test, hnone, hempty]
      · intro hne
        have hans : ¬ test_result.answer = [] := by
          intro h
          exact hne (by simp [h, stripWs, dropTrailingWs])
        simp [compute_abstention_metrics_for_test, hnone, hans, hne]

/-- **C7**, witness — the theorem applied at a concrete unanswerable input
with a whitespace-only answer. -/
theorem abstention_scorer_witness :
    compute_abstention_metrics_for_test ⟨none, "  ".toList⟩ false =
      some ⟨true, false⟩ :=
  (((abstention_scorer_rule ⟨none, "  ".toList⟩ false).2 rfl).2 rfl).1 (by decide)

/-!
## Claim theorem: the Run Comparator
-/

theorem mem_commonIds (results1 results2 : List CompResult) (id : Str) :
    id ∈ commonIds results1 results2 ↔
      (∃ r ∈ results1, r.test_case_id = id) ∧ (∃ r ∈ results2, r.test_case_id = id) := by
  simp only [commonIds, List.mem_filter, List.mem_dedup, List.mem_map, List.contains,
    List.elem_iff]

theorem lookupResult_isSome (results : List CompResult) (id : Str)
    (h : ∃ r ∈ results, r.test_case_id = id) :
    ∃ r', lookupResult results id = some r' := by
  rcases h with ⟨r, hm, he⟩
  have : (results.reverse.find? fun r => r.test_case_id = id).isSome := by
    rw [List.find?_isSome]
    exact ⟨r, List.mem_reverse.mpr hm, by simp [he]⟩
  rcases Option.isSome_iff_exists.mp this with ⟨r', hr'⟩
  exact ⟨r', hr'⟩

theorem lookupResult_mem (results : List CompResult) (id : Str) (r : CompResult)
    (h : lookupResult results id = some r) : r ∈ results ∧ r.test_case_id = id := by
  have hm := List.mem_of_find?_eq_some h
  have hp := List.find?_some h
  exact ⟨List.mem_reverse.mp hm, by simpa using hp⟩

/-- The regression flag of the per-test loop body, as a proposition. -/
theorem findChangesForPair_fst (r1 r2 : CompResult) :
    (findChangesForPair r1 r2).1 = true ↔
      ((r1.recall_at_k.getD 0 = 1 ∧ r2.recall_at_k.getD 0 = 0) ∨
       (∃ g1 g2, r1.groundedness_score = some g1 ∧ r2.groundedness_score = some g2 ∧
          4 ≤ g1 ∧ g2 < 3) ∨
       (∃ c1 c2, r1.correctness_score = some c1 ∧ r2.correctness_score = some c2 ∧
          4 ≤ c1 ∧ c2 < 3)) := by
  unfold findChangesForPair
  rcases hg1 : r1.groundedness_score with _ | g1 <;>
    rcases hg2 : r2.groundedness_score with _ | g2 <;>
    rcases hc1 : r1.correctness_score with _ | c1 <;>
    rcases hc2 : r2.correctness_score with _ | c2 <;>
    simp [hg1, hg2, hc1, hc2, ge_iff_le, or_assoc]

/-- The improvement flag of the per-test loop body, as a proposition:
the `elif` guards of the source are redundant because the paired conditions
are mutually exclusive. -/
theorem findChangesForPair_snd (r1 r2 : CompResult) :
    (findChangesForPair r1 r2).2 = true ↔
      ((r1.recall_at_k.getD 0 = 0 ∧ r2.recall_at_k.getD 0 = 1) ∨
       (∃ g1 g2, r1.groundedness_score = some g1 ∧ r2.groundedness_score = some g2 ∧
          g1 < 3 ∧ 4 ≤ g2) ∨
       (∃ c1 c2, r1.correctness_score = some c1 ∧ r2.correctness_score = some c2 ∧
          c1 < 3 ∧ 4 ≤ c2)) := by
  have hguard : ∀ a b : ℚ, ((a < 4 ∨ 3 ≤ b) ∧ a < 3 ∧ 4 ≤ b) ↔ (a < 3 ∧ 4 ≤ b) := by
    intro a b
    constructor
    · rintro ⟨-, h⟩
      exact h
    · rintro ⟨h1, h2⟩
      exact ⟨Or.inl (by linarith), h1, h2⟩
  have hguardr : ∀ a b : ℚ, ((¬ a = 1 ∨ ¬ b = 0) ∧ a = 0 ∧ b = 1) ↔ (a = 0 ∧ b = 1) := by
    intro a b
    constructor
    · rintro ⟨-, h⟩
      exact h
    · rintro ⟨h1, h2⟩
      exact ⟨Or.inl (by rw [h1]; norm_num), h1, h2⟩
  unfold findChangesForPair
  rcases hg1 : r1.groundedness_score with _ | g1 <;>
    rcases hg2 : r2.groundedness_score with _ | g2 <;>
    rcases hc1 : r1.correctness_score with _ | c1 <;>
    rcases hc2 : r2.correctness_score with _ | c2 <;>
    simp [hg1, hg2, hc1, hc2, ge_iff_le, hguard, hguardr, or_assoc]

/-- **C8** — Run Comparator classification: over the intersection by
`test_case_id` of two runs' results (the last record with a given id winning,
as in the Python dict build), a test case is classified a regression exactly
when its recall flips `1.0 → 0.0` or its groundedness/correctness score
crosses from `≥ 4.0` down to strictly below `3.0`, and an improvement exactly
when recall flips `0.0 → 1.0` or a score crosses from strictly below `3.0` up
to `≥ 4.0`; movements inside `[3.0, 4.0)` produce no classification, and ids
present in only one run are never classified. -/
theorem comparator_classification (results1 results2 : List CompResult) (id : Str) :
    (id ∈ (find_test_changes results1 results2).1 ↔
      ((∃ r ∈ results1, r.test_case_id = id) ∧ (∃ r ∈ results2, r.test_case_id = id) ∧
       ∃ r1 r2, lookupResult results1 id = some r1 ∧ lookupResult results2 id = some r2 ∧
         ((r1.recall_at_k.getD 0 = 1 ∧ r2.recall_at_k.getD 0 = 0) ∨
          (∃ g1 g2, r1.groundedness_score = some g1 ∧ r2.groundedness_score = some g2 ∧
             4 ≤ g1 ∧ g2 < 3) ∨
          (∃ c1 c2, r1.correctness_score = some c1 ∧ r2.correctness_score = some c2 ∧
             4 ≤ c1 ∧ c2 < 3))))
    ∧ (id ∈ (find_test_changes results1 results2).2 ↔
      ((∃ r ∈ results1, r.test_case_id = id) ∧ (∃ r ∈ results2, r.test_case_id = id) ∧
       ∃ r1 r2, lookupResult results1 id = some r1 ∧ lookupResult results2 id = some r2 ∧
         ((r1.recall_at_k.getD 0 = 0 ∧ r2.recall_at_k.getD 0 = 1) ∨
          (∃ g1 g2, r1.groundedness_score = some g1 ∧ r2.groundedness_score = some g2 ∧
             g1 < 3 ∧ 4 ≤ g2) ∨
          (∃ c1 c2, r1.correctness_score = some c1 ∧ r2.correctness_score = some c2 ∧
             c1 < 3 ∧ 4 ≤ c2)))) := by
  constructor
  · rw [find_test_changes]
    simp only [List.mem_filter, mem_commonIds]
    constructor
    · rintro ⟨⟨h1, h2⟩, hcl⟩
      rcases lookupResult_isSome results1 id h1 with ⟨r1, hr1⟩
      rcases lookupResult_isSome results2 id h2 with ⟨r2, hr2⟩
      rw [hr1, hr2] at hcl
      exact ⟨h1, h2, r1, r2, hr1, hr2, (findChangesForPair_fst r1 r2).mp hcl⟩
    · rintro ⟨h1, h2, r1, r2, hr1, hr2, hcond⟩
      refine ⟨⟨h1, h2⟩, ?_⟩
      rw [hr1, hr2]
      exact (findChangesForPair_fst r1 r2).mpr hcond
  · rw [find_test_changes]
    simp only [List.mem_filter, mem_commonIds]
    constructor
    · rintro ⟨⟨h1, h2⟩, hcl⟩
      rcases lookupResult_isSome results1 id h1 with ⟨r1, hr1⟩
      rcases lookupResult_isSome results2 id h2 with ⟨r2, hr2⟩
      rw [hr1, hr2] at hcl
      exact ⟨h1, h2, r1, r2, hr1, hr2, (findChangesForPair_snd r1 r2).mp hcl⟩
    · rintro ⟨h1, h2, r1, r2, hr1, hr2, hcond⟩
      refine ⟨⟨h1, h2⟩, ?_⟩
      rw [hr1, hr2]
      exact (findChangesForPair_snd r1 r2).mpr hcond

/-!
## Claim theorems: Recall-all@K (multi-hop)
-/

/-- The per-index check of `compute_recall_all_at_k`, as a proposition:
an in-range index whose gold support has a matching chunk among the scanned
chunks. -/
theorem recall_all_idx_check (gold_supports : List GoldSupport)
    (top_k_chunks : List RetrievedChunk) (idx : Nat) :
    (match gold_supports[idx]? with
      | none => false
      | some gold_support => top_k_chunks.any fun chunk => chunkMatches chunk gold_support) = true ↔
    ∃ _ : idx < gold_supports.length,
      ∃ chunk ∈ top_k_chunks, chunkMatches chunk gold_supports[idx] = true := by
  rcases h : gold_supports[idx]? with _ | g
  · have hlen := List.getElem?_eq_none_iff.mp h
    simp only [Bool.false_eq_true, false_iff]
    rintro ⟨hlt, -⟩
    omega
  · rcases List.getElem?_eq_some_iff.mp h with ⟨hlt, hg⟩
    simp only [List.any_eq_true, hg]
    constructor
    · rintro ⟨chunk, hmem, hm⟩
      exact ⟨hlt, chunk, hmem, hm⟩
    · rintro ⟨-, chunk, hmem, hm⟩
      exact ⟨chunk, hmem, hm⟩

/-- **C4** — Recall-all@K (multi-hop) semantics: with a non-empty group list
the result is `1.0` iff some group is satisfied, where a group is satisfied
iff every index in it is in range for the gold-support list and its gold
support has at least one matching chunk among the first `k` (an out-of-range
index fails its group); the result is `0.0` iff no group is satisfied; with
an empty (or absent) group list the result equals Recall@K(any). -/
theorem recall_all_characterization (retrieved_chunks : List RetrievedChunk)
    (gold_supports : List GoldSupport)
    (required_support_groups : List (List Nat)) (k : Nat) :
    (required_support_groups = [] →
      compute_recall_all_at_k retrieved_chunks gold_supports required_support_groups k =
        (compute_recall_at_k retrieved_chunks gold_supports k).1)
    ∧ (required_support_groups ≠ [] →
        ((compute_recall_all_at_k retrieved_chunks gold_supports
             required_support_groups k = 1 ↔
           ∃ group ∈ required_support_groups, ∀ idx ∈ group,
             ∃ _ : idx < gold_supports.length,
               ∃ chunk ∈ retrieved_chunks.take k,
                 chunkMatches chunk gold_supports[idx] = true)
         ∧ (compute_recall_all_at_k retrieved_chunks gold_supports
             required_support_groups k = 0 ↔
           ¬ ∃ group ∈ required_support_groups, ∀ idx ∈ group,
             ∃ _ : idx < gold_supports.length,
               ∃ chunk ∈ retrieved_chunks.take k,
                 chunkMatches chunk gold_supports[idx] = true))) := by
  constructor
  · intro hempty
    simp [compute_recall_all_at_k, hempty]
  · intro hne
    have hcond : (required_support_groups.any fun group =>
        group.all fun support_idx =>
          match gold_supports[support_idx]? with
          | none => false
          | some gold_support =>
            (retrieved_chunks.take k).any fun chunk =>
              chunkMatches chunk gold_support) = true ↔
        ∃ group ∈ required_support_groups, ∀ idx ∈ group,
          ∃ _ : idx < gold_supports.length,
            ∃ chunk ∈ retrieved_chunks.take k,
              chunkMatches chunk gold_supports[idx] = true := by
      simp only [List.any_eq_true, List.all_eq_true, recall_all_idx_check]
    unfold compute_recall_all_at_k
    rw [if_neg hne]
    by_cases h : (required_support_groups.any fun group =>
        group.all fun support_idx =>
          match gold_supports[support_idx]? with
          | none => false
          | some gold_support =>
            (retrieved_chunks.take k).any fun chunk =>
              chunkMatches chunk gold_support) = true
    · rw [if_pos h]
      exact ⟨by simpa using hcond.mp h, by
        constructor
        · intro h10
          exact absurd h10 (by norm_num)
        · intro hno
          exact absurd (hcond.mp h) hno⟩
    · rw [if_neg h]
      constructor
      · constructor
        · intro h01
          exact absurd h01 (by norm_num)
        · intro hsat
          exact absurd (hcond.mpr hsat) h
      · constructor
        · intro _
          exact fun hsat => h (hcond.mpr hsat)
        · intro _
          rfl

/-- **C4**, witness — the spec's multi-hop example: groups `[[0], [1, 2]]`
with only gold supports 1 and 2 retrieved yields `1.0` (the second group is
satisfied). -/
theorem recall_all_witness :
    compute_recall_all_at_k
      [⟨"b.md".toList, [], [], 1⟩, ⟨"c.md".toList, [], [], 2⟩]
      [⟨"a.md".toList, [], none⟩, ⟨"b.md".toList, [], none⟩, ⟨"c.md".toList, [], none⟩]
      [[0], [1, 2]] 5 = 1 :=
  ((recall_all_characterization
      [⟨"b.md".toList, [], [], 1⟩, ⟨"c.md".toList, [], [], 2⟩]
      [⟨"a.md".toList, [], none⟩, ⟨"b.md".toList, [], none⟩, ⟨"c.md".toList, [], none⟩]
      [[0], [1, 2]] 5).2 (by decide)).1.mpr (by decide)

/-!
## Claim theorem: Recall@K and MRR consistency
-/

/-- **C3** — Recall@K and MRR consistency: with 1-based ranks (`rank = index
+ 1`), if no chunk among the first `k` matches any gold support then
Recall@K is `(0.0, null)` and MRR is `0.0`; if the first matching chunk among
the first `k` sits at 0-based position `i`, then Recall@K is `(1.0, i + 1)`
(so a match at rank `k` counts and one at rank `k + 1` does not: only
`retrieved_chunks.take k` is scanned) and MRR is `1 / (i + 1)`. -/
theorem recall_mrr_consistency (retrieved_chunks : List RetrievedChunk)
    (gold_supports : List GoldSupport) (k : Nat)
    (hrank : ∀ i (h : i < retrieved_chunks.length), retrieved_chunks[i].rank = i + 1) :
    ((∀ c ∈ retrieved_chunks.take k, chunkMatchesAny c gold_supports = false) →
      compute_recall_at_k retrieved_chunks gold_supports k = (0, none) ∧
      compute_mrr retrieved_chunks gold_supports k = some 0)
    ∧ (∀ i, (h : i < (retrieved_chunks.take k).length) →
        chunkMatchesAny (retrieved_chunks.take k)[i] gold_supports = true →
        (∀ c ∈ (retrieved_chunks.take k).take i, chunkMatchesAny c gold_supports = false) →
        compute_recall_at_k retrieved_chunks gold_supports k = (1, some (i + 1)) ∧
        i + 1 ≤ k ∧
        compute_mrr retrieved_chunks gold_supports k = some (1 / ((i + 1 : ℕ) : ℚ))) := by
  constructor
  · intro hno
    have h0 : compute_recall_at_k retrieved_chunks gold_supports k = (0, none) :=
      recallScan_of_no_match gold_supports _ hno
    exact ⟨h0, by simp [compute_mrr, h0]⟩
  · intro i h hm hbefore
    have hlen : i < retrieved_chunks.length := by
      have := h
      simp only [List.length_take] at this
      omega
    have hik : i < k := by
      have := h
      simp only [List.length_take] at this
      omega
    have hget : (retrieved_chunks.take k)[i] = retrieved_chunks[i] :=
      List.getElem_take retrieved_chunks
    have h1 : compute_recall_at_k retrieved_chunks gold_supports k =
        (1, some ((retrieved_chunks.take k)[i].rank)) :=
      recallScan_first_match gold_supports _ i h hm hbefore
    rw [hget, hrank i hlen] at h1
    refine ⟨h1, hik, ?_⟩
    have : ((i + 1 : ℕ) : ℚ) ≠ 0 := by positivity
    simp [compute_mrr, h1]

/-- **C3**, witness — two chunks with ranks 1 and 2, the second matching the
single gold support, `k = 2`: Recall@K is `(1.0, 2)` and MRR is `1/2`. -/
theorem recall_mrr_witness :
    compute_recall_at_k
        [⟨"a.md".toList, [], [], 1⟩, ⟨"b.md".toList, [], [], 2⟩]
        [⟨"b.md".toList, [], none⟩] 2 = (1, some (1 + 1)) ∧
    1 + 1 ≤ 2 ∧
    compute_mrr
        [⟨"a.md".toList, [], [], 1⟩, ⟨"b.md".toList, [], [], 2⟩]
        [⟨"b.md".toList, [], none⟩] 2 = some (1 / ((1 + 1 : ℕ) : ℚ)) :=
  (recall_mrr_consistency
      [⟨"a.md".toList, [], [], 1⟩, ⟨"b.md".toList, [], [], 2⟩]
      [⟨"b.md".toList, [], none⟩] 2
      (by decide)).2 1 (by decide) (by decide) (by decide)

/-!
## Claim theorem: totality of the Matcher and Metric Engine
-/

/-- **C9** — Totality: in this embedding every metric function is a total
Lean function; the only operation of the source that can raise on well-formed
input shapes is the `1.0 / rank` division inside `compute_mrr` (modelled by
`Option`), and under the well-formedness precondition that every chunk
carries a positive (1-based) `rank` it always returns a value, which lies in
`[0, 1]`; moreover Recall@K only returns `0.0` or `1.0` (with a `null` or a
positive first-match rank), Precision@K lies in `[0, 1]`, and Recall-all@K
only returns `0.0` or `1.0`. -/
theorem metric_engine_totality (retrieved_chunks : List RetrievedChunk)
    (gold_supports : List GoldSupport) (k : Nat)
    (required_support_groups : List (List Nat))
    (hrank : ∀ c ∈ retrieved_chunks, 1 ≤ c.rank) :
    (∃ q, compute_mrr retrieved_chunks gold_supports k = some q ∧ 0 ≤ q ∧ q ≤ 1)
    ∧ ((compute_recall_at_k retrieved_chunks gold_supports k).1 = 0 ∨
       (compute_recall_at_k retrieved_chunks gold_supports k).1 = 1)
    ∧ ((compute_recall_at_k retrieved_chunks gold_supports k).2 = none ∨
       ∃ r, (compute_recall_at_k retrieved_chunks gold_supports k).2 = some r ∧ 1 ≤ r)
    ∧ (0 ≤ compute_precision_at_k retrieved_chunks gold_supports k ∧
       compute_precision_at_k retrieved_chunks gold_supports k ≤ 1)
    ∧ (compute_recall_all_at_k retrieved_chunks gold_supports
         required_support_groups k = 0 ∨
       compute_recall_all_at_k retrieved_chunks gold_supports
         required_support_groups k = 1) := by
  have hshape := recallScan_snd_shape gold_supports (retrieved_chunks.take k)
  refine ⟨?_, ?_, ?_, ?_, ?_⟩
  · rcases hshape with h0 | ⟨c, hmem, heq, -⟩
    · exact ⟨0, by simp [compute_mrr, compute_recall_at_k, h0], le_refl 0, by norm_num⟩
    · have hc : 1 ≤ c.rank := hrank c (List.mem_of_mem_take hmem)
      have hne : c.rank ≠ 0 := by omega
      refine ⟨1 / (c.rank : ℚ), ?_, ?_, ?_⟩
      · simp [compute_mrr, compute_recall_at_k, heq, hne]
      · positivity
      · rw [div_le_one (by positivity)]
        exact_mod_cast hc
  · exact recallScan_fst_zero_or_one gold_supports _
  · rcases hshape with h0 | ⟨c, hmem, heq, -⟩
    · exact Or.inl (by simp [compute_recall_at_k, h0])
    · exact Or.inr ⟨c.rank, by simp [compute_recall_at_k, heq],
        hrank c (List.mem_of_mem_take hmem)⟩
  · unfold compute_precision_at_k
    by_cases hk : k = 0
    · simp [hk]
    · rw [if_neg hk]
      have hkpos : (0 : ℚ) < (k : ℚ) := by
        have : 0 < k := Nat.pos_of_ne_zero hk
        exact_mod_cast this
      constructor
      · positivity
      · rw [div_le_one hkpos]
        have hle : ((retrieved_chunks.take k).countP
            fun chunk => chunkMatchesAny chunk gold_supports) ≤ k :=
          le_trans (List.countP_le_length _) (by simp [List.length_take_le])
        exact_mod_cast hle
  · unfold compute_recall_all_at_k
    by_cases hg : required_support_groups = []
    · rw [if_pos hg]
      exact recallScan_fst_zero_or_one gold_supports _
    · rw [if_neg hg]
      by_cases hc : (required_support_groups.any fun group =>
          group.all fun support_idx =>
            match gold_supports[support_idx]? with
            | none => false
            | some gold_support =>
              (retrieved_chunks.take k).any fun chunk =>
                chunkMatches chunk gold_support) = true
      · exact Or.inr (by rw [if_pos hc])
      · exact Or.inl (by rw [if_neg hc])

/-- **C9**, witness — the totality theorem applied at a concrete input. -/
theorem metric_engine_totality_witness :
    ∃ q, compute_mrr [⟨"a.md".toList, [], [], 1⟩] [⟨"a.md".toList, [], none⟩] 1 =
        some q ∧ 0 ≤ q ∧ q ≤ 1 :=
  (metric_engine_totality [⟨"a.md".toList, [], [], 1⟩] [⟨"a.md".toList, [], none⟩]
    1 [] (by decide)).1

/-!
## The Anchor Normalizer: shape of stripped strings

These lemmas pin down the boundary characters produced by `stripWs` and
`dropTrailingWs`, preparing the normal-form characterization of
`normalize_heading_path` needed for the idempotence analysis.
-/

theorem pyWs_ne_gt {c : Char} (h : pyWs c = true) : c ≠ '>' := by
  intro hc
  rw [hc] at h
  exact absurd h (by decide)

theorem pyWs_space : pyWs ' ' = true := by decide

theorem head?_dropWhile_not {p : Char → Bool} {l : Str} {c : Char}
    (h : (l.dropWhile p).head? = some c) : p c = false := by
  induction l with
  | nil => simp at h
  | cons a t ih =>
    by_cases hp : p a = true
    · rw [List.dropWhile_cons_of_pos hp] at h
      exact ih h
    · rw [List.dropWhile_cons_of_neg hp] at h
      simp only [List.head?_cons, Option.some.injEq] at h
      subst h
      exact Bool.not_eq_true _ ▸ hp

theorem dropWhile_eq_self_of_head {p : Char → Bool} {l : Str}
    (h : ∀ c, l.head? = some c → p c = false) : l.dropWhile p = l := by
  cases l with
  | nil => rfl
  | cons a t => exact List.dropWhile_cons_of_neg (by simp [h a rfl])

theorem dropTrailingWs_pre (l : Str) : dropTrailingWs l <+: l := by
  have h := List.dropWhile_suffix (l := l.reverse) pyWs
  have := List.reverse_prefix.mpr h
  simpa [dropTrailingWs] using this

theorem getLast?_dropTrailingWs_not {l : Str} {c : Char}
    (h : (dropTrailingWs l).getLast? = some c) : pyWs c = false := by
  rw [dropTrailingWs, List.getLast?_reverse] at h
  exact head?_dropWhile_not h

theorem head?_dropTrailingWs {l : Str} {c : Char}
    (h : (dropTrailingWs l).head? = some c) : l.head? = some c := by
  rcases dropTrailingWs_pre l with ⟨t, ht⟩
  have hne : dropTrailingWs l ≠ [] := by
    intro hnil
    rw [hnil] at h
    simp at h
  rw [← ht, List.head?_append_of_ne_nil _ hne]
  exact h

theorem dropTrailingWs_eq_self {l : Str}
    (h : ∀ c, l.getLast? = some c → pyWs c = false) : dropTrailingWs l = l := by
  rw [dropTrailingWs, dropWhile_eq_self_of_head, List.reverse_reverse]
  intro c hc
  exact h c (by rwa [List.head?_reverse] at hc)

theorem stripWs_head_not {l : Str} {c : Char}
    (h : (stripWs l).head? = some c) : pyWs c = false := by
  rw [stripWs] at h
  exact head?_dropWhile_not (head?_dropTrailingWs h)

theorem stripWs_last_not {l : Str} {c : Char}
    (h : (stripWs l).getLast? = some c) : pyWs c = false := by
  rw [stripWs] at h
  exact getLast?_dropTrailingWs_not h

theorem stripWs_eq_self {l : Str}
    (hh : ∀ c, l.head? = some c → pyWs c = false)
    (hl : ∀ c, l.getLast? = some c → pyWs c = false) : stripWs l = l := by
  rw [stripWs, dropWhile_eq_self_of_head hh, dropTrailingWs_eq_self hl]

theorem mem_dropTrailingWs {l : Str} {c : Char} (h : c ∈ dropTrailingWs l) : c ∈ l := by
  rcases dropTrailingWs_pre l with ⟨t, ht⟩
  rw [← ht]
  exact List.mem_append_left _ h

theorem mem_stripWs {l : Str} {c : Char} (h : c ∈ stripWs l) : c ∈ l := by
  rw [stripWs] at h
  exact (List.dropWhile_suffix pyWs).mem (mem_dropTrailingWs h)

theorem stripWs_within (l : Str) : stripWs l <:+: l := by
  rcases dropTrailingWs_pre (l.dropWhile pyWs) with ⟨t, ht⟩
  rcases List.dropWhile_suffix (l := l) pyWs with ⟨u, hu⟩
  refine ⟨u, t, ?_⟩
  rw [stripWs, List.append_assoc, ht, hu]

theorem stripWs_eq_dropWhile_of_last {l : Str} {c : Char}
    (hc : l.getLast? = some c) (hws : pyWs c = false) :
    stripWs l = l.dropWhile pyWs := by
  rw [stripWs]
  apply dropTrailingWs_eq_self
  intro c' hc'
  have hne : l.dropWhile pyWs ≠ [] := by
    intro hnil
    rw [List.dropWhile_eq_nil_iff] at hnil
    have hmem : c ∈ l := List.mem_of_mem_getLast? hc
    rw [hnil c hmem] at hws
    simp at hws
  rcases List.dropWhile_suffix (l := l) pyWs with ⟨u, hu⟩
  have hdw : (l.dropWhile pyWs).getLast? = some c := by
    rw [← hu] at hc
    rwa [List.getLast?_append_of_ne_nil _ hne] at hc
  rw [hdw, Option.some.injEq] at hc'
  rw [← hc']
  exact hws

/-!
## Whitespace normal form produced by `collapse`
-/

/-- A string is whitespace-good when its only whitespace character is `' '`
and no two whitespace characters are adjacent — exactly the shape
`re.sub(r'\\s+', ' ', ...)` produces. -/
def wsGood (l : Str) : Prop :=
  (∀ c ∈ l, pyWs c = true → c = ' ') ∧
  l.Chain' fun a b => pyWs a = true → pyWs b = false

theorem wsGood_nil : wsGood [] := ⟨by simp, List.chain'_nil⟩

theorem wsGood_within {u l : Str} (h : u <:+: l) (hl : wsGood l) : wsGood u :=
  ⟨fun c hc hw => hl.1 c (h.mem hc) hw, List.Chain'.infix hl.2 h⟩

theorem wsGood_cons_of_not_ws {c : Char} {l : Str} (hc : pyWs c = false)
    (hl : wsGood l) : wsGood (c :: l) := by
  refine ⟨?_, ?_⟩
  · intro a ha hw
    rcases List.mem_cons.mp ha with rfl | ha'
    · rw [hw] at hc
      simp at hc
    · exact hl.1 a ha' hw
  · rw [List.chain'_cons']
    exact ⟨fun b _ hw => by rw [hw] at hc; simp at hc, hl.2⟩

theorem mem_collapse_or : ∀ l : Str, (∀ c ∈ collapse l, c = ' ' ∨ c ∈ l) ∧
    (∀ c ∈ collapseW l, c = ' ' ∨ c ∈ l)
  | [] => by constructor <;> intro c hc <;> simp [collapse, collapseW] at hc
  | a :: rest => by
      have ih := mem_collapse_or rest
      constructor <;> intro c hc
      · by_cases hw : pyWs a = true
        · rw [collapse, if_pos hw] at hc
          rcases List.mem_cons.mp hc with rfl | hc'
          · exact Or.inl rfl
          · rcases ih.2 c hc' with h | h
            · exact Or.inl h
            · exact Or.inr (List.mem_cons_of_mem _ h)
        · rw [collapse, if_neg hw] at hc
          rcases List.mem_cons.mp hc with rfl | hc'
          · exact Or.inr (List.mem_cons_self _ _)
          · rcases ih.1 c hc' with h | h
            · exact Or.inl h
            · exact Or.inr (List.mem_cons_of_mem _ h)
      · by_cases hw : pyWs a = true
        · rw [collapseW, if_pos hw] at hc
          rcases ih.2 c hc with h | h
          · exact Or.inl h
          · exact Or.inr (List.mem_cons_of_mem _ h)
        · rw [collapseW, if_neg hw] at hc
          rcases List.mem_cons.mp hc with rfl | hc'
          · exact Or.inr (List.mem_cons_self _ _)
          · rcases ih.1 c hc' with h | h
            · exact Or.inl h
            · exact Or.inr (List.mem_cons_of_mem _ h)

theorem collapse_wsGood : ∀ l : Str, wsGood (collapse l) ∧
    (wsGood (collapseW l) ∧ ∀ c, (collapseW l).head? = some c → pyWs c = false)
  | [] => ⟨wsGood_nil, wsGood_nil, by simp [collapseW]⟩
  | a :: rest => by
      have ih := collapse_wsGood rest
      constructor
      · by_cases hw : pyWs a = true
        · rw [collapse, if_pos hw]
          refine ⟨?_, ?_⟩
          · intro c hc hwc
            rcases List.mem_cons.mp hc with rfl | hc'
            · rfl
            · exact ih.2.1.1 c hc' hwc
          · rw [List.chain'_cons']
            exact ⟨fun b hb _ => ih.2.2 b hb, ih.2.1.2⟩
        · rw [collapse, if_neg hw]
          exact wsGood_cons_of_not_ws (by simpa using hw) ih.1
      · by_cases hw : pyWs a = true
        · rw [collapseW, if_pos hw]
          exact ih.2
        · rw [collapseW, if_neg hw]
          refine ⟨wsGood_cons_of_not_ws (by simpa using hw) ih.1, ?_⟩
          intro c hc
          simp only [List.head?_cons, Option.some.injEq] at hc
          rw [← hc]
          simpa using hw

theorem collapseW_eq_nil_all_ws : ∀ l : Str, collapseW l = [] → ∀ c ∈ l, pyWs c = true
  | [], _, c, hc => by simp at hc
  | a :: rest, h, c, hc => by
      by_cases hw : pyWs a = true
      · rw [collapseW, if_pos hw] at h
        rcases List.mem_cons.mp hc with rfl | hc'
        · exact hw
        · exact collapseW_eq_nil_all_ws rest h c hc'
      · rw [collapseW, if_neg hw] at h
        simp at h

theorem collapse_ne_nil {l : Str} (h : l ≠ []) : collapse l ≠ [] := by
  cases l with
  | nil => exact absurd rfl h
  | cons a rest =>
    by_cases hw : pyWs a = true
    · rw [collapse, if_pos hw]
      simp
    · rw [collapse, if_neg hw]
      simp

theorem getLast?_cons_ne_nil {a : Char} {l : Str} (h : l ≠ []) :
    (a :: l).getLast? = l.getLast? := by
  cases l with
  | nil => exact absurd rfl h
  | cons b bs => rfl

theorem exists_getLast?_of_ne_nil {l : Str} (h : l ≠ []) : ∃ c, l.getLast? = some c := by
  rcases Option.isSome_iff_exists.mp (List.getLast?_isSome.mpr h) with ⟨c, hc⟩
  exact ⟨c, hc⟩

/-- The hypothesis "the last character is not whitespace", as used for
the collapse analysis. -/
def lastOk (l : Str) : Prop := ∀ c, l.getLast? = some c → pyWs c = false

theorem lastOk_tail {a : Char} {l : Str} (h : lastOk (a :: l)) (hne : l ≠ []) :
    lastOk l := by
  intro c hc
  apply h
  rwa [getLast?_cons_ne_nil hne]

theorem not_all_ws_of_lastOk {l : Str} (h : lastOk l) (hne : l ≠ []) :
    ¬ ∀ c ∈ l, pyWs c = true := by
  intro hall
  rcases exists_getLast?_of_ne_nil hne with ⟨c, hc⟩
  have := h c hc
  rw [hall c (List.mem_of_mem_getLast? hc)] at this
  simp at this

theorem collapse_lastOk : ∀ l : Str,
    (lastOk l → lastOk (collapse l)) ∧ (lastOk l → lastOk (collapseW l))
  | [] => ⟨fun _ => by intro c hc; simp [collapse] at hc,
           fun _ => by intro c hc; simp [collapseW] at hc⟩
  | a :: rest => by
      have ih := collapse_lastOk rest
      constructor
      · intro hl
        by_cases hw : pyWs a = true
        · have hne : rest ≠ [] := by
            rintro rfl
            have := hl a rfl
            rw [this] at hw
            simp at hw
          have hlr : lastOk rest := lastOk_tail hl hne
          rw [collapse, if_pos hw]
          intro c hc
          cases hW : collapseW rest with
          | nil =>
            exact absurd (collapseW_eq_nil_all_ws rest hW) (not_all_ws_of_lastOk hlr hne)
          | cons b bs =>
            rw [hW] at hc
            rw [getLast?_cons_ne_nil (by simp)] at hc
            exact ih.2 hlr c (by rwa [hW])
        · rw [collapse, if_neg hw]
          intro c hc
          rcases List.eq_nil_or_concat rest with rfl | -
          · simp only [collapse, List.getLast?_singleton, Option.some.injEq] at hc
            rw [← hc]
            simpa using hw
          · by_cases hne : rest = []
            · subst hne
              simp only [collapse, List.getLast?_singleton, Option.some.injEq] at hc
              rw [← hc]
              simpa using hw
            · have hlr : lastOk rest := lastOk_tail hl hne
              rw [getLast?_cons_ne_nil (collapse_ne_nil hne)] at hc
              exact ih.1 hlr c hc
      · intro hl
        by_cases hw : pyWs a = true
        · rw [collapseW, if_pos hw]
          by_cases hne : rest = []
          · subst hne
            intro c hc
            simp [collapseW] at hc
          · exact ih.2 (lastOk_tail hl hne)
        · rw [collapseW, if_neg hw]
          intro c hc
          by_cases hne : rest = []
          · subst hne
            simp only [collapse, List.getLast?_singleton, Option.some.injEq] at hc
            rw [← hc]
            simpa using hw
          · have hlr : lastOk rest := lastOk_tail hl hne
            rw [getLast?_cons_ne_nil (collapse_ne_nil hne)] at hc
            exact ih.1 hlr c hc

/-!
## Segment normal form

A segment in the image of the per-part processing: non-empty, free of `>`,
no whitespace other than single interior spaces, and (for `normSeg`) not
starting with a space.
-/

/-- A character that may appear in a normalized segment outside spaces:
not whitespace and not `>`. -/
def okChar (c : Char) : Bool := !pyWs c && !(c = '>')

/-- The body of a normalized segment: every character is `okChar` or a `' '`
that is followed by an `okChar` character (so no trailing space, no double
space, no tab). -/
def segTail : Str → Bool
  | [] => true
  | c :: rest =>
    if c = ' ' then
      match rest with
      | [] => false
      | c2 :: _ => okChar c2 && segTail rest
    else okChar c && segTail rest

/-- A normalized segment: non-empty, `okChar` head, well-formed body. -/
def normSeg (p : Str) : Bool :=
  match p with
  | [] => false
  | c :: _ => okChar c && segTail p

theorem okChar_eq_true {c : Char} : okChar c = true ↔ (pyWs c = false ∧ c ≠ '>') := by
  simp [okChar]

theorem segTail_cons_space {c2 : Char} {rest : Str} :
    segTail (' ' :: c2 :: rest) = (okChar c2 && segTail (c2 :: rest)) := by
  simp [segTail]

theorem segTail_cons_not_space {c : Char} {rest : Str} (h : ¬ c = ' ') :
    segTail (c :: rest) = (okChar c && segTail rest) := by
  rw [segTail.eq_def]
  simp [h]

theorem wsGood_tail {a : Char} {l : Str} (h : wsGood (a :: l)) : wsGood l :=
  ⟨fun c hc hw => h.1 c (List.mem_cons_of_mem _ hc) hw, h.2.tail⟩

/-- A whitespace-good, `>`-free string with a non-whitespace last character
has a well-formed segment body. -/
theorem segTail_of : ∀ p : Str, wsGood p → lastOk p → (∀ c ∈ p, c ≠ '>') →
    segTail p = true
  | [], _, _, _ => rfl
  | a :: rest, hws, hlast, hgt => by
    have htail : wsGood rest := wsGood_tail hws
    by_cases ha : a = ' '
    · subst ha
      cases rest with
      | nil =>
        have := hlast ' ' rfl
        rw [pyWs_space] at this
        simp at this
      | cons c2 rest2 =>
        rw [segTail_cons_space]
        have hc2ws : pyWs c2 = false := (List.chain'_cons.mp hws.2).1 pyWs_space
        have hok : okChar c2 = true :=
          okChar_eq_true.mpr ⟨hc2ws, hgt c2 (by simp)⟩
        rw [hok, segTail_of (c2 :: rest2) htail (lastOk_tail hlast (by simp))
          (fun c hc => hgt c (List.mem_cons_of_mem _ hc))]
        rfl
    · have haws : pyWs a = false := by
        by_cases h : pyWs a = true
        · exact absurd (hws.1 a (by simp) h) ha
        · simpa using h
      rw [segTail_cons_not_space ha,
        okChar_eq_true.mpr ⟨haws, hgt a (by simp)⟩]
      cases rest with
      | nil => rfl
      | cons c2 rest2 =>
        rw [segTail_of (c2 :: rest2) htail (lastOk_tail hlast (by simp))
          (fun c hc => hgt c (List.mem_cons_of_mem _ hc))]
        rfl

/-- Every character of a well-formed segment body is `okChar` or `' '`. -/
theorem segTail_all : ∀ p : Str, segTail p = true →
    ∀ c ∈ p, okChar c = true ∨ c = ' '
  | [], _, c, hc => by simp at hc
  | a :: rest, h, c, hc => by
    by_cases ha : a = ' '
    · subst ha
      cases rest with
      | nil => simp [segTail] at h
      | cons c2 rest2 =>
        rw [segTail_cons_space, Bool.and_eq_true] at h
        rcases List.mem_cons.mp hc with rfl | hc'
        · exact Or.inr rfl
        · exact segTail_all _ h.2 c hc'
    · rw [segTail_cons_not_space ha, Bool.and_eq_true] at h
      rcases List.mem_cons.mp hc with rfl | hc'
      · exact Or.inl h.1
      · exact segTail_all _ h.2 c hc'

/-- A well-formed segment body does not end in whitespace. -/
theorem segTail_lastOk : ∀ p : Str, segTail p = true → lastOk p
  | [], _ => by intro c hc; simp at hc
  | a :: rest, h => by
    by_cases ha : a = ' '
    · subst ha
      cases rest with
      | nil => simp [segTail] at h
      | cons c2 rest2 =>
        rw [segTail_cons_space, Bool.and_eq_true] at h
        intro c hc
        rw [getLast?_cons_ne_nil (by simp)] at hc
        exact segTail_lastOk _ h.2 c hc
    · rw [segTail_cons_not_space ha, Bool.and_eq_true] at h
      cases rest with
      | nil =>
        intro c hc
        simp only [List.getLast?_singleton, Option.some.injEq] at hc
        rw [← hc]
        exact (okChar_eq_true.mp h.1).1
      | cons c2 rest2 =>
        intro c hc
        rw [getLast?_cons_ne_nil (by simp)] at hc
        exact segTail_lastOk _ h.2 c hc

/-- A well-formed segment body is whitespace-good. -/
theorem segTail_wsGood : ∀ p : Str, segTail p = true → wsGood p
  | [], _ => wsGood_nil
  | a :: rest, h => by
    by_cases ha : a = ' '
    · subst ha
      cases rest with
      | nil => simp [segTail] at h
      | cons c2 rest2 =>
        rw [segTail_cons_space, Bool.and_eq_true] at h
        have ih := segTail_wsGood _ h.2
        refine ⟨?_, ?_⟩
        · intro c hc hw
          rcases List.mem_cons.mp hc with rfl | hc'
          · rfl
          · exact ih.1 c hc' hw
        · rw [List.chain'_cons']
          refine ⟨?_, ih.2⟩
          intro b hb _
          rw [Option.mem_def, List.head?_cons, Option.some.injEq] at hb
          rw [← hb]
          exact (okChar_eq_true.mp h.1).1
    · rw [segTail_cons_not_space ha, Bool.and_eq_true] at h
      exact wsGood_cons_of_not_ws (okChar_eq_true.mp h.1).1 (segTail_wsGood _ h.2)

theorem normSeg_parts {p : Str} (h : normSeg p = true) :
    p ≠ [] ∧ segTail p = true ∧ (∀ c, p.head? = some c → okChar c = true) := by
  cases p with
  | nil => simp [normSeg] at h
  | cons a rest =>
    rw [normSeg, Bool.and_eq_true] at h
    refine ⟨by simp, h.2, ?_⟩
    intro c hc
    simp only [List.head?_cons, Option.some.injEq] at hc
    rw [← hc]
    exact h.1

theorem normSeg_no_gt {p : Str} (h : normSeg p = true) : ∀ c ∈ p, c ≠ '>' := by
  intro c hc
  rcases segTail_all p (normSeg_parts h).2.1 c hc with hok | hsp
  · exact (okChar_eq_true.mp hok).2
  · rw [hsp]
    decide

theorem normSeg_of {p : Str} (hne : p ≠ []) (hws : wsGood p)
    (hhead : ∀ c, p.head? = some c → pyWs c = false) (hlast : lastOk p)
    (hgt : ∀ c ∈ p, c ≠ '>') : normSeg p = true := by
  cases p with
  | nil => exact absurd rfl hne
  | cons a rest =>
    rw [normSeg, Bool.and_eq_true]
    exact ⟨okChar_eq_true.mpr ⟨hhead a rfl, hgt a (by simp)⟩,
      segTail_of _ hws hlast hgt⟩

/-!
## Splitting on the canonical separator
-/

theorem intercalate_single (p : Str) : List.intercalate sep [p] = p := by
  simp [List.intercalate]

theorem intercalate_cons₂ (p q : Str) (rest : List Str) :
    List.intercalate sep (p :: q :: rest) =
      p ++ sep ++ List.intercalate sep (q :: rest) := by
  simp [List.intercalate, List.append_assoc]

theorem splitG_ne_nil (l : Str) : splitG l ≠ [] := by
  rw [splitG.eq_def]
  split
  · simp
  · split <;> simp
  · simp

theorem splitG_sep_cons (rest : Str) :
    splitG (' ' :: '>' :: ' ' :: rest) = [] :: splitG rest := rfl

theorem splitG_cons_eq (c : Char) (l : Str)
    (h : ¬ (c = ' ' ∧ ∃ r, l = '>' :: ' ' :: r)) :
    splitG (c :: l) =
      match splitG l with
      | [] => [[c]]
      | p :: ps => (c :: p) :: ps := by
  rw [splitG.eq_def]
  split
  · rename_i rest heq
    exfalso
    apply h
    injection heq with h1 h2
    exact ⟨h1, rest, h2⟩
  · rename_i c' rest heq
    injection heq with h1 h2
    rw [h1, h2]
  · rename_i heq
    simp at heq

theorem splitG_no_gt_single : ∀ p : Str, (∀ c ∈ p, c ≠ '>') → splitG p = [p]
  | [], _ => rfl
  | c :: rest, h => by
    have hno : ¬ (c = ' ' ∧ ∃ r, rest = '>' :: ' ' :: r) := by
      rintro ⟨rfl, r, rfl⟩
      exact h '>' (by simp) rfl
    rw [splitG_cons_eq c rest hno,
      splitG_no_gt_single rest fun c' hc' => h c' (List.mem_cons_of_mem _ hc')]

theorem splitG_append_sep : ∀ (p t : Str), (∀ c ∈ p, c ≠ '>') →
    splitG (p ++ sep ++ t) = p :: splitG t
  | [], t, _ => by
    simp only [List.nil_append, sep, List.cons_append]
    exact splitG_sep_cons t
  | c :: p', t, h => by
    have hno : ¬ (c = ' ' ∧ ∃ r, p' ++ sep ++ t = '>' :: ' ' :: r) := by
      rintro ⟨rfl, r, hr⟩
      cases p' with
      | nil => simp [sep] at hr
      | cons a p'' =>
        simp only [List.cons_append] at hr
        injection hr with h1 _
        exact h a (by simp) h1
    have hrec := splitG_append_sep p' t fun c' hc' => h c' (List.mem_cons_of_mem _ hc')
    simp only [List.cons_append, List.append_assoc] at hrec ⊢
    rw [splitG_cons_eq c _ (by simpa [List.append_assoc] using hno), hrec]

theorem splitG_intercalate : ∀ ps : List Str, ps ≠ [] →
    (∀ p ∈ ps, ∀ c ∈ p, c ≠ '>') → splitG (List.intercalate sep ps) = ps
  | [], h, _ => absurd rfl h
  | [p], _, hgt => by
    rw [intercalate_single]
    exact splitG_no_gt_single p (hgt p (by simp))
  | p :: q :: rest, _, hgt => by
    rw [intercalate_cons₂, splitG_append_sep p _ (hgt p (by simp)),
      splitG_intercalate (q :: rest) (by simp)
        fun p' hp' => hgt p' (List.mem_cons_of_mem _ hp')]

theorem splitG_append_nogt : ∀ u s : Str, (∀ c ∈ u, c ≠ '>') →
    (∀ c, s.head? = some c → c ≠ '>') →
    splitG (u ++ s) = (u ++ (splitG s).headI) :: (splitG s).tail
  | [], s, _, _ => by
    simp only [List.nil_append]
    cases hs : splitG s with
    | nil => exact absurd hs (splitG_ne_nil s)
    | cons p ps => simp
  | c :: u', s, hu, hs => by
    have hno : ¬ (c = ' ' ∧ ∃ r, u' ++ s = '>' :: ' ' :: r) := by
      rintro ⟨rfl, r, hr⟩
      cases u' with
      | nil =>
        simp only [List.nil_append] at hr
        exact hs '>' (by rw [hr]; rfl) rfl
      | cons a u'' =>
        simp only [List.cons_append] at hr
        injection hr with h1 _
        exact hu a (by simp) h1
    rw [List.cons_append, splitG_cons_eq c _ hno,
      splitG_append_nogt u' s (fun c' hc' => hu c' (List.mem_cons_of_mem _ hc')) hs]
    simp

/-!
## The separator-rewriting pass `sub1`: every `>` it emits is consumed by
the subsequent split
-/

theorem headI_mem {l : List Str} (h : l ≠ []) : l.headI ∈ l := by
  cases l with
  | nil => exact absurd rfl h
  | cons p ps => simp [List.headI]

theorem sub1_head_not_gt : ∀ l : Str,
    (∀ c, (sub1 l).head? = some c → c ≠ '>') ∧
    (∀ c, (afterGt l).head? = some c → c ≠ '>') ∧
    (∀ acc, (∀ a ∈ acc, pyWs a = true) → ∀ c, (inWs acc l).head? = some c → c ≠ '>')
  | [] => by
    refine ⟨?_, ?_, ?_⟩
    · intro c hc
      simp [sub1] at hc
    · intro c hc
      simp [afterGt] at hc
    · intro acc hacc c hc
      rw [inWs, List.head?_reverse] at hc
      exact pyWs_ne_gt (hacc c (List.mem_of_mem_getLast? hc))
  | b :: rest => by
    have ih := sub1_head_not_gt rest
    refine ⟨?_, ?_, ?_⟩
    · intro c hc
      by_cases hgt : b = '>'
      · rw [sub1, if_pos hgt] at hc
        simp only [List.head?_cons, Option.some.injEq] at hc
        rw [← hc]
        decide
      · by_cases hws : pyWs b = true
        · rw [sub1, if_neg hgt, if_pos hws] at hc
          exact ih.2.2 [b] (by simpa using hws) c hc
        · rw [sub1, if_neg hgt, if_neg hws] at hc
          simp only [List.head?_cons, Option.some.injEq] at hc
          rw [← hc]
          exact hgt
    · intro c hc
      by_cases hws : pyWs b = true
      · rw [afterGt, if_pos hws] at hc
        exact ih.2.1 c hc
      · by_cases hgt : b = '>'
        · rw [afterGt, if_neg hws, if_pos hgt] at hc
          simp only [List.head?_cons, Option.some.injEq] at hc
          rw [← hc]
          decide
        · rw [afterGt, if_neg hws, if_neg hgt] at hc
          simp only [List.head?_cons, Option.some.injEq] at hc
          rw [← hc]
          exact hgt
    · intro acc hacc c hc
      by_cases hws : pyWs b = true
      · rw [inWs, if_pos hws] at hc
        refine ih.2.2 (b :: acc) ?_ c hc
        intro a ha
        rcases List.mem_cons.mp ha with rfl | ha'
        · exact hws
        · exact hacc a ha'
      · by_cases hgt : b = '>'
        · rw [inWs, if_neg hws, if_pos hgt] at hc
          simp only [List.head?_cons, Option.some.injEq] at hc
          rw [← hc]
          decide
        · rw [inWs, if_neg hws, if_neg hgt] at hc
          cases hrev : acc.reverse with
          | nil =>
            rw [hrev, List.nil_append] at hc
            simp only [List.head?_cons, Option.some.injEq] at hc
            rw [← hc]
            exact hgt
          | cons a as =>
            rw [hrev, List.cons_append] at hc
            simp only [List.head?_cons, Option.some.injEq] at hc
            rw [← hc]
            refine pyWs_ne_gt (hacc a ?_)
            have : a ∈ acc.reverse := by
              rw [hrev]
              simp
            simpa using this

theorem sub1_parts_no_gt : ∀ l : Str,
    (∀ q ∈ splitG (sub1 l), ∀ c ∈ q, c ≠ '>') ∧
    (∀ q ∈ splitG (afterGt l), ∀ c ∈ q, c ≠ '>') ∧
    (∀ acc, (∀ a ∈ acc, pyWs a = true) →
      ∀ q ∈ splitG (inWs acc l), ∀ c ∈ q, c ≠ '>')
  | [] => by
    refine ⟨?_, ?_, ?_⟩
    · intro q hq c hc
      rw [show sub1 [] = [] from rfl] at hq
      simp only [show splitG [] = [[]] from rfl, List.mem_singleton] at hq
      rw [hq] at hc
      simp at hc
    · intro q hq c hc
      rw [show afterGt [] = [] from rfl] at hq
      simp only [show splitG [] = [[]] from rfl, List.mem_singleton] at hq
      rw [hq] at hc
      simp at hc
    · intro acc hacc q hq c hc
      rw [inWs] at hq
      have hnog : ∀ c' ∈ acc.reverse, c' ≠ '>' := by
        intro c' hc'
        exact pyWs_ne_gt (hacc c' (by simpa using hc'))
      rw [splitG_no_gt_single _ hnog, List.mem_singleton] at hq
      rw [hq] at hc
      exact hnog c hc
  | b :: rest => by
    have ihh := sub1_head_not_gt rest
    have ih := sub1_parts_no_gt rest
    have happend : ∀ (u : Str), (∀ c ∈ u, c ≠ '>') →
        ∀ q ∈ splitG (u ++ sub1 rest), ∀ c ∈ q, c ≠ '>' := by
      intro u hu q hq c hc
      rw [splitG_append_nogt u (sub1 rest) hu ihh.1] at hq
      rcases List.mem_cons.mp hq with rfl | hq'
      · rcases List.mem_append.mp hc with hcu | hchead
        · exact hu c hcu
        · exact ih.1 _ (headI_mem (splitG_ne_nil _)) c hchead
      · exact ih.1 q (List.mem_of_mem_tail hq') c hc
    refine ⟨?_, ?_, ?_⟩
    · intro q hq c hc
      by_cases hgt : b = '>'
      · rw [sub1, if_pos hgt, splitG_sep_cons] at hq
        rcases List.mem_cons.mp hq with rfl | hq'
        · simp at hc
        · exact ih.2.1 q hq' c hc
      · by_cases hws : pyWs b = true
        · rw [sub1, if_neg hgt, if_pos hws] at hq
          exact ih.2.2 [b] (by simpa using hws) q hq c hc
        · rw [sub1, if_neg hgt, if_neg hws] at hq
          exact happend [b] (by simpa using hgt) q (by simpa using hq) c hc
    · intro q hq c hc
      by_cases hws : pyWs b = true
      · rw [afterGt, if_pos hws] at hq
        exact ih.2.1 q hq c hc
      · by_cases hgt : b = '>'
        · rw [afterGt, if_neg hws, if_pos hgt, splitG_sep_cons] at hq
          rcases List.mem_cons.mp hq with rfl | hq'
          · simp at hc
          · exact ih.2.1 q hq' c hc
        · rw [afterGt, if_neg hws, if_neg hgt] at hq
          exact happend [b] (by simpa using hgt) q (by simpa using hq) c hc
    · intro acc hacc q hq c hc
      by_cases hws : pyWs b = true
      · rw [inWs, if_pos hws] at hq
        refine ih.2.2 (b :: acc) ?_ q hq c hc
        intro a ha
        rcases List.mem_cons.mp ha with rfl | ha'
        · exact hws
        · exact hacc a ha'
      · by_cases hgt : b = '>'
        · rw [inWs, if_neg hws, if_pos hgt, splitG_sep_cons] at hq
          rcases List.mem_cons.mp hq with rfl | hq'
          · simp at hc
          · exact ih.2.1 q hq' c hc
        · rw [inWs, if_neg hws, if_neg hgt, List.append_cons] at hq
          refine happend (acc.reverse ++ [b]) ?_ q hq c hc
          intro c' hc'
          rcases List.mem_append.mp hc' with hca | hcb
          · exact pyWs_ne_gt (hacc c' (by simpa using hca))
          · rw [List.mem_singleton.mp hcb]
            exact hgt

/-!
## Normal forms are fixed points of each pipeline stage
-/

theorem collapse_fix : ∀ p : Str, segTail p = true → collapse p = p
  | [], _ => rfl
  | c :: rest, h => by
    by_cases hc : c = ' '
    · subst hc
      cases rest with
      | nil => simp [segTail] at h
      | cons c2 rest2 =>
        rw [segTail_cons_space, Bool.and_eq_true] at h
        have hok := okChar_eq_true.mp h.1
        have hc2ne : ¬ c2 = ' ' := by
          intro he
          rw [he] at hok
          exact absurd hok.1 (by decide)
        have h2 := h.2
        rw [segTail_cons_not_space hc2ne, Bool.and_eq_true] at h2
        rw [collapse, if_pos pyWs_space, collapseW, if_neg (by simp [hok.1]),
          collapse_fix rest2 h2.2]
    · rw [segTail_cons_not_space hc, Bool.and_eq_true] at h
      have hok := okChar_eq_true.mp h.1
      rw [collapse, if_neg (by simp [hok.1]), collapse_fix rest h.2]

theorem sub1_append_seg : ∀ p t : Str, segTail p = true → sub1 (p ++ t) = p ++ sub1 t
  | [], t, _ => by simp
  | c :: rest, t, h => by
    by_cases hc : c = ' '
    · subst hc
      cases rest with
      | nil => simp [segTail] at h
      | cons c2 rest2 =>
        rw [segTail_cons_space, Bool.and_eq_true] at h
        have hok := okChar_eq_true.mp h.1
        have hc2ne : ¬ c2 = ' ' := by
          intro he
          rw [he] at hok
          exact absurd hok.1 (by decide)
        have h2 := h.2
        rw [segTail_cons_not_space hc2ne, Bool.and_eq_true] at h2
        rw [List.cons_append, sub1, if_neg (by decide), if_pos pyWs_space,
          List.cons_append, inWs, if_neg (by simp [hok.1]), if_neg hok.2,
          sub1_append_seg rest2 t h2.2]
        simp
    · rw [segTail_cons_not_space hc, Bool.and_eq_true] at h
      have hok := okChar_eq_true.mp h.1
      rw [List.cons_append, sub1, if_neg hok.2, if_neg (by simp [hok.1]),
        sub1_append_seg rest t h.2]
      rfl

theorem hashStrip_fix {p : Str} (h : p.head? ≠ some '#') : hashStrip p = p := by
  rw [hashStrip.eq_def]
  split
  · exact absurd rfl h
  · rfl

theorem afterGt_eq_sub1 {l : Str}
    (h : ∀ c, l.head? = some c → pyWs c = false ∧ c ≠ '>') :
    afterGt l = sub1 l := by
  cases l with
  | nil => rfl
  | cons c rest =>
    have hc := h c rfl
    rw [afterGt, if_neg (by simp [hc.1]), if_neg hc.2, sub1, if_neg hc.2,
      if_neg (by simp [hc.1])]

theorem head?_intercalate_cons (q : Str) (rest : List Str) (hq : q ≠ []) :
    (List.intercalate sep (q :: rest)).head? = q.head? := by
  cases rest with
  | nil => rw [intercalate_single]
  | cons r rs =>
    rw [intercalate_cons₂, List.append_assoc, List.head?_append_of_ne_nil _ hq]

theorem intercalate_cons_ne_nil (q : Str) (rest : List Str) (hq : q ≠ []) :
    List.intercalate sep (q :: rest) ≠ [] := by
  intro h0
  have := head?_intercalate_cons q rest hq
  rw [h0] at this
  cases q with
  | nil => exact absurd rfl hq
  | cons a t => simp at this

theorem lastOk_intercalate : ∀ ps : List Str, (∀ p ∈ ps, p ≠ []) →
    (∀ p ∈ ps, lastOk p) → lastOk (List.intercalate sep ps)
  | [], _, _ => by
    intro c hc
    simp [List.intercalate] at hc
  | [p], _, hlast => by
    rw [intercalate_single]
    exact hlast p (by simp)
  | p :: q :: rest, hne, hlast => by
    rw [intercalate_cons₂]
    intro c hc
    have hicr := intercalate_cons_ne_nil q rest (hne q (by simp))
    rw [List.getLast?_append_of_ne_nil _ hicr] at hc
    exact lastOk_intercalate (q :: rest)
      (fun p' hp' => hne p' (List.mem_cons_of_mem _ hp'))
      (fun p' hp' => hlast p' (List.mem_cons_of_mem _ hp')) c hc

theorem sub1_intercalate : ∀ ps : List Str, (∀ p ∈ ps, normSeg p = true) →
    sub1 (List.intercalate sep ps) = List.intercalate sep ps
  | [], _ => rfl
  | [p], hps => by
    rw [intercalate_single]
    have h := (normSeg_parts (hps p (by simp))).2.1
    have hthis := sub1_append_seg p [] h
    have h0 : sub1 ([] : Str) = [] := rfl
    rw [List.append_nil, h0, List.append_nil] at hthis
    exact hthis
  | p :: q :: rest, hps => by
    have hp := normSeg_parts (hps p (by simp))
    have hq := normSeg_parts (hps q (by simp [List.mem_cons]))
    have hqhead : ∀ c, (List.intercalate sep (q :: rest)).head? = some c →
        pyWs c = false ∧ c ≠ '>' := by
      intro c hc
      rw [head?_intercalate_cons q rest hq.1] at hc
      have hok := okChar_eq_true.mp (hq.2.2 c hc)
      exact hok
    have hsepX : sub1 (sep ++ List.intercalate sep (q :: rest)) =
        sep ++ sub1 (List.intercalate sep (q :: rest)) := by
      show sub1 (' ' :: '>' :: ' ' :: List.intercalate sep (q :: rest)) = _
      rw [sub1, if_neg (by decide), if_pos pyWs_space, inWs, if_neg (by decide),
        if_pos (by decide), afterGt, if_pos pyWs_space,
        afterGt_eq_sub1 hqhead]
      rfl
    rw [intercalate_cons₂, List.append_assoc, sub1_append_seg p _ hp.2.1, hsepX,
      sub1_intercalate (q :: rest)
        (fun p' hp' => hps p' (List.mem_cons_of_mem _ hp'))]

/-!
## The image of the per-part processing consists of normal segments
-/

theorem hashStrip_suffix (p : Str) : hashStrip p <:+ p := by
  rw [hashStrip.eq_def]
  split
  · exact (List.dropWhile_suffix _).trans (List.dropWhile_suffix _)
  · exact List.suffix_refl p

theorem getLast?_of_suffix {u l : Str} (h : u <:+ l) (hne : u ≠ []) :
    u.getLast? = l.getLast? := by
  rcases h with ⟨t, rfl⟩
  rw [List.getLast?_append_of_ne_nil _ hne]

theorem lastOk_hashStrip {p : Str} (h : lastOk p) : lastOk (hashStrip p) := by
  intro c hc
  have hne : hashStrip p ≠ [] := by
    intro h0
    rw [h0] at hc
    simp at hc
  rw [getLast?_of_suffix (hashStrip_suffix p) hne] at hc
  exact h c hc

theorem lastOk_stripWs (l : Str) : lastOk (stripWs l) :=
  fun _ hc => stripWs_last_not hc

/-- If a part survives the per-part processing, its final form is a normal
segment (given the part itself is free of `>`). -/
theorem processPart_good {q : Str} (hpp : processPart q ≠ [])
    (hgt : ∀ c ∈ q, c ≠ '>') :
    normSeg (stripWs (processPart q)) = true ∧ stripWs (processPart q) ≠ [] := by
  have hu_last : lastOk (hashStrip (stripWs q)) := lastOk_hashStrip (lastOk_stripWs q)
  have hcol_last : lastOk (processPart q) := (collapse_lastOk _).1 hu_last
  rcases exists_getLast?_of_ne_nil hpp with ⟨cl, hcl⟩
  have hclws : pyWs cl = false := hcol_last cl hcl
  have hstrip_eq : stripWs (processPart q) = (processPart q).dropWhile pyWs :=
    stripWs_eq_dropWhile_of_last hcl hclws
  have hsne : stripWs (processPart q) ≠ [] := by
    rw [hstrip_eq]
    intro h0
    rw [List.dropWhile_eq_nil_iff] at h0
    have := h0 cl (List.mem_of_mem_getLast? hcl)
    rw [hclws] at this
    simp at this
  have hws : wsGood (stripWs (processPart q)) :=
    wsGood_within (stripWs_within _) (collapse_wsGood _).1
  have hgt' : ∀ c ∈ stripWs (processPart q), c ≠ '>' := by
    intro c hc
    rcases (mem_collapse_or _).1 c (mem_stripWs hc) with rfl | hcu
    · decide
    · exact hgt c (mem_stripWs ((hashStrip_suffix _).mem hcu))
  exact ⟨normSeg_of hsne hws (fun _ hc => stripWs_head_not hc)
    (lastOk_stripWs _) hgt', hsne⟩

theorem filterMap_id_of {α : Type} (f : α → Option α) :
    ∀ l : List α, (∀ a ∈ l, f a = some a) → l.filterMap f = l
  | [], _ => rfl
  | a :: rest, h => by
    rw [List.filterMap_cons, h a (by simp),
      filterMap_id_of f rest fun a' ha' => h a' (List.mem_cons_of_mem _ ha')]

theorem normalize_eq (x : Str) (hx : x ≠ []) :
    normalize_heading_path x = stripWs (List.intercalate sep
      ((splitG (sub1 (stripWs x))).filterMap fun part =>
        if processPart part = [] then none else some (stripWs (processPart part)))) := by
  rw [normalize_heading_path, if_neg hx]

/-- A string whose split is a list of hash-free normal segments is a fixed
point of `normalize_heading_path`. -/
theorem normalize_fix : ∀ ps : List Str, ps ≠ [] →
    (∀ p ∈ ps, normSeg p = true) →
    (∀ p ∈ ps, p.head? ≠ some '#') →
    normalize_heading_path (List.intercalate sep ps) = List.intercalate sep ps
  | [], hne, _, _ => absurd rfl hne
  | p₀ :: ps', _, hseg, hhash => by
    have hp0 := normSeg_parts (hseg p₀ (by simp))
    have hsne : List.intercalate sep (p₀ :: ps') ≠ [] :=
      intercalate_cons_ne_nil p₀ ps' hp0.1
    have hshead : ∀ c, (List.intercalate sep (p₀ :: ps')).head? = some c →
        pyWs c = false := by
      intro c hc
      rw [head?_intercalate_cons p₀ ps' hp0.1] at hc
      exact (okChar_eq_true.mp (hp0.2.2 c hc)).1
    have hslast : lastOk (List.intercalate sep (p₀ :: ps')) :=
      lastOk_intercalate _ (fun p hp => (normSeg_parts (hseg p hp)).1)
        (fun p hp => segTail_lastOk p (normSeg_parts (hseg p hp)).2.1)
    have hstrip : stripWs (List.intercalate sep (p₀ :: ps')) =
        List.intercalate sep (p₀ :: ps') := stripWs_eq_self hshead hslast
    have hsub : sub1 (List.intercalate sep (p₀ :: ps')) =
        List.intercalate sep (p₀ :: ps') := sub1_intercalate _ hseg
    have hsplit : splitG (List.intercalate sep (p₀ :: ps')) = p₀ :: ps' :=
      splitG_intercalate _ (by simp) (fun p hp => normSeg_no_gt (hseg p hp))
    have hfm : ∀ p ∈ p₀ :: ps',
        (if processPart p = [] then none else some (stripWs (processPart p))) =
          some p := by
      intro p hp
      have hnp := normSeg_parts (hseg p hp)
      have hps : stripWs p = p :=
        stripWs_eq_self (fun c hc => (okChar_eq_true.mp (hnp.2.2 c hc)).1)
          (segTail_lastOk p hnp.2.1)
      have hpp : processPart p = p := by
        rw [processPart, hps, hashStrip_fix (hhash p hp), collapse_fix p hnp.2.1]
      rw [hpp, if_neg hnp.1, hps]
    rw [normalize_eq _ hsne, hstrip, hsub, hsplit,
      filterMap_id_of _ _ hfm, hstrip]

/-- Characterization of the normalizer's output: it is empty, or it is the
`" > "`-join of its own split, whose parts are all normal segments. -/
theorem normalize_parts_charact (x : Str) :
    normalize_heading_path x = [] ∨
    ((∀ p ∈ splitG (normalize_heading_path x), normSeg p = true) ∧
     splitG (normalize_heading_path x) ≠ [] ∧
     normalize_heading_path x =
       List.intercalate sep (splitG (normalize_heading_path x))) := by
  by_cases hx : x = []
  · left
    rw [hx]
    rfl
  · have heq := normalize_eq x hx
    set gp := (splitG (sub1 (stripWs x))).filterMap
      (fun part => if processPart part = [] then none
        else some (stripWs (processPart part))) with hgpdef
    have hmem : ∀ q ∈ gp, normSeg q = true ∧ q ≠ [] := by
      intro q hq
      rw [hgpdef, List.mem_filterMap] at hq
      rcases hq with ⟨part, hpart, hf⟩
      by_cases hpp : processPart part = []
      · rw [if_pos hpp] at hf
        exact absurd hf (by simp)
      · rw [if_neg hpp] at hf
        have hq' : q = stripWs (processPart part) := (Option.some.inj hf).symm
        have hgt : ∀ c ∈ part, c ≠ '>' :=
          (sub1_parts_no_gt (stripWs x)).1 part hpart
        rw [hq']
        exact processPart_good hpp hgt
    cases hgp0 : gp with
    | nil =>
      left
      rw [heq, hgp0]
      rfl
    | cons g gs =>
      have hg := hmem g (by rw [hgp0]; simp)
      have hall : ∀ p ∈ g :: gs, normSeg p = true := by
        rw [← hgp0]
        exact fun p hp => (hmem p hp).1
      have hstrip_eq : stripWs (List.intercalate sep (g :: gs)) =
          List.intercalate sep (g :: gs) := by
        apply stripWs_eq_self
        · intro c hc
          rw [head?_intercalate_cons g gs hg.2] at hc
          exact (okChar_eq_true.mp ((normSeg_parts hg.1).2.2 c hc)).1
        · exact lastOk_intercalate _
            (fun p hp => (normSeg_parts (hall p hp)).1)
            (fun p hp => segTail_lastOk p (normSeg_parts (hall p hp)).2.1)
      have hval : normalize_heading_path x = List.intercalate sep (g :: gs) := by
        rw [heq, hgp0, hstrip_eq]
      have hsplit : splitG (normalize_heading_path x) = g :: gs := by
        rw [hval]
        exact splitG_intercalate _ (by simp)
          (fun p hp => normSeg_no_gt (hall p hp))
      right
      rw [hsplit]
      exact ⟨hall, by simp, by rw [hval]⟩

/-!
## Claim theorems: Normalizer idempotence
-/

/-- **C10**, counterexample — the normalizer is *not* idempotent: stripping
the leading `#`-run and following whitespace of a segment can expose a new
leading `#`, which a second application then strips.  Concretely
`normalize("# #a") = "#a"` but `normalize("#a") = "a"`. -/
theorem normalize_not_idempotent :
    normalize_heading_path (normalize_heading_path "# #a".toList) ≠
      normalize_heading_path "# #a".toList := by decide

/-- **C10**, amended — the normalizer is idempotent on every input whose
normalized form has no segment beginning with `'#'` (the only way a second
application can differ is the heading-marker strip firing again on an
exposed leading `'#'`). -/
theorem normalize_idempotent_no_hash (x : Str)
    (h : ∀ p ∈ splitG (normalize_heading_path x), p.head? ≠ some '#') :
    normalize_heading_path (normalize_heading_path x) =
      normalize_heading_path x := by
  rcases normalize_parts_charact x with h0 | ⟨hall, hne, hval⟩
  · rw [h0]
    rfl
  · calc normalize_heading_path (normalize_heading_path x)
        = normalize_heading_path
            (List.intercalate sep (splitG (normalize_heading_path x))) := by
          rw [← hval]
      _ = List.intercalate sep (splitG (normalize_heading_path x)) :=
          normalize_fix _ hne hall h
      _ = normalize_heading_path x := hval.symm

/-- **C10**, witness — the amended idempotence applied at the spec's own
normalizer example. -/
theorem normalize_idempotent_witness :
    normalize_heading_path (normalize_heading_path
        "## Setup > ### Embeddings".toList) =
      normalize_heading_path "## Setup > ### Embeddings".toList :=
  normalize_idempotent_no_hash "## Setup > ### Embeddings".toList (by decide)

end HelloworldEval
